import Mathlib

/-!
Verification of `composer/optim/decoupled_weight_decay.py`.

This file gives a shallow embedding of the two optimizers in that file
(`DecoupledSGDW`, `DecoupledAdamW`) and of the distributed metric-reduction
protocol (`pre_reduce_metrics` / `dist_reduce_metrics` /
`report_per_parameter_metrics`), and proves properties of the embedding.

Modelling conventions:
* tensors are `List ℝ` (element-wise operations are `List.map` / `List.zipWith`);
* Python floats used as hyperparameters are `ℚ` (so the branch conditions
  `weight_decay != 0`, `initial_lr` truthiness, … are decidable), cast into `ℝ`
  where they meet tensor data;
* metric dictionaries are ordered association lists `List (String × ℝ)`
  (Python dicts preserve insertion order); assignment to an existing key keeps
  its position, assignment to a new key appends;
* Python string operations `s.startswith(p)`, `p in s`, `s.split(c)` are
  modelled by `pyStartsWith`, `pyContains`, `pySplit` over the character lists;
* the `dist` collective is modelled by the worker count `n` together with a
  function `g : String → ℝ` giving, for each metric key, the sum over all
  workers of that key's local (post-pre-reduce) value; `dist.all_reduce` of a
  key is `g key` when `n > 1`;
* the sparse-gradient `RuntimeError` of `DecoupledAdamW.step` is modelled by
  a `Bool` success flag on the step result, with the partially mutated state
  (Python mutates in place, so mutations made before the raise persist).
-/

namespace Composer

/-! ## Python string primitives -/

/-- Python `pat in s` restricted to what the source needs: `s.startswith(pat)`. -/
def pyStartsWith (s pat : String) : Bool := pat.toList.isPrefixOf s.toList

/-- Python `pat in s` (substring containment), used by the sort key in
`pre_reduce_metrics`. -/
def pyContains (s pat : String) : Bool := s.toList.tails.any (fun t => pat.toList.isPrefixOf t)

/-- Helper for `pySplit`: accumulates the current chunk (reversed). -/
def pySplitAux (c : Char) : List Char → List Char → List String
  | [], acc => [String.mk acc.reverse]
  | x :: xs, acc =>
    if x = c then String.mk acc.reverse :: pySplitAux c xs []
    else pySplitAux c xs (x :: acc)

/-- Python `s.split(c)` for a single-character separator. -/
def pySplit (s : String) (c : Char) : List String := pySplitAux c s.toList []

/-! ## Tensor-runtime model: vector norms, dot products, cosine similarity

`torch.linalg.vector_norm` is the euclidean norm of the flattened tensor and
`torch.nn.functional.cosine_similarity(u, v, dim=0)` on flattened tensors is
the normalized dot product. -/

/-- Sum of squares of the entries of a vector. -/
def sumSq (v : List ℝ) : ℝ := (v.map (fun x => x ^ 2)).sum

/-- Model of `torch.linalg.vector_norm`: the euclidean (L2) norm. -/
noncomputable def l2norm (v : List ℝ) : ℝ := Real.sqrt (sumSq v)

/-- Dot product of two vectors (`zipWith` mirrors broadcasting-free torch). -/
def dot (u v : List ℝ) : ℝ := (List.zipWith (fun a b => a * b) u v).sum

/-- Model of `torch.nn.functional.cosine_similarity` on flattened tensors
(idealized: no `eps` clamping, real arithmetic). -/
noncomputable def cosine_sim (u v : List ℝ) : ℝ := dot u v / (l2norm u * l2norm v)

/-! ## Metric dictionaries -/

/-- A metrics dictionary: an insertion-ordered association list. -/
abbrev Metrics := List (String × ℝ)

/-- The keys of a metrics dictionary, in insertion order. -/
def keysOf (m : Metrics) : List String := m.map Prod.fst

/-- Dictionary lookup (first matching key; `0` for a missing key — the source
only ever looks up keys that are present). -/
noncomputable def findVal : Metrics → String → ℝ
  | [], _ => 0
  | (k', v) :: rest, k => if k' = k then v else findVal rest k

/-- Python dict assignment `m[k] = v`: replace in place if the key exists,
append otherwise. -/
noncomputable def setM (m : Metrics) (k : String) (v : ℝ) : Metrics :=
  if k ∈ keysOf m then m.map (fun p => if p.1 = k then (k, v) else p) else m ++ [(k, v)]

/-! ## The parsing of `cosine/<A>_<B>/<layer>` keys

`dist_reduce_metrics` and `pre_reduce_metrics` both run
`_, vectors, layer = tuple(metric.split('/'))`, `A, B = tuple(vectors.split('_'))`
and then look up `f'l2_norm/{A}/{layer}'` and `f'l2_norm/{B}/{layer}'`. -/

/-- The `A` of a `cosine/<A>_<B>/<layer>` key. -/
def cosA (k : String) : String := ((pySplit k '/').getD 1 "" |> (pySplit · '_')).getD 0 ""

/-- The `B` of a `cosine/<A>_<B>/<layer>` key. -/
def cosB (k : String) : String := ((pySplit k '/').getD 1 "" |> (pySplit · '_')).getD 1 ""

/-- The `<layer>` of a `cosine/<A>_<B>/<layer>` key. -/
def cosLayer (k : String) : String := (pySplit k '/').getD 2 ""

/-- The `l2_norm/{A}/{layer}` key referenced by a cosine key. -/
def cosKeyA (k : String) : String := "l2_norm/" ++ (cosA k ++ ("/" ++ cosLayer k))

/-- The `l2_norm/{B}/{layer}` key referenced by a cosine key. -/
def cosKeyB (k : String) : String := "l2_norm/" ++ (cosB k ++ ("/" ++ cosLayer k))

/-! ## `DecoupledAdamW.pre_reduce_metrics` -/

/-- One iteration of the loop body of `pre_reduce_metrics` at key `k`. -/
noncomputable def preReduceStep (m : Metrics) (k : String) : Metrics :=
  if pyStartsWith k "l2_norm" then
    setM m k (findVal m k ^ 2)
  else if pyStartsWith k "cosine" then
    setM m k (findVal m k *
      (Real.sqrt (findVal m (cosKeyA k)) * Real.sqrt (findVal m (cosKeyB k))))
  else m

/-- Model of `sorted(metrics, key=lambda metric: 0 if 'l2_norm' in metric else 1)`:
Python's sort is stable, so this is the `l2_norm`-containing keys in order
followed by the rest in order. -/
def sortedKeys (ks : List String) : List String :=
  ks.filter (fun k => pyContains k "l2_norm") ++ ks.filter (fun k => !(pyContains k "l2_norm"))

/-- Model of `DecoupledAdamW.pre_reduce_metrics`. -/
noncomputable def pre_reduce_metrics (m : Metrics) : Metrics :=
  (sortedKeys (keysOf m)).foldl preReduceStep m

/-! ## `DecoupledAdamW.dist_reduce_metrics`

`n` is `dist.get_world_size()`; `g k` is the all-reduce (SUM) result for key
`k`, i.e. the sum over all workers of the local value that each worker holds
for `k` when the collective for `k` runs (each key is visited exactly once and
its own value is unchanged until its visit, so this is the sum of the workers'
post-`pre_reduce_metrics` values). -/

/-- One iteration of the loop body of `dist_reduce_metrics` at key `k`. -/
noncomputable def distReduceStep (n : ℕ) (g : String → ℝ) (m : Metrics) (k : String) : Metrics :=
  let reduced := if 1 < n then g k else findVal m k
  if pyStartsWith k "l2_norm" then
    setM m k (Real.sqrt reduced)
  else if pyStartsWith k "cosine" then
    setM m k (reduced / (findVal m (cosKeyA k) * findVal m (cosKeyB k)))
  else
    setM m k (reduced / (n : ℝ))

/-- Model of `DecoupledAdamW.dist_reduce_metrics` (iterates the dict in insertion
order — unlike `pre_reduce_metrics` it does not sort). -/
noncomputable def dist_reduce_metrics (n : ℕ) (g : String → ℝ) (m : Metrics) : Metrics :=
  (keysOf m).foldl (distReduceStep n g) m

/-- The cross-worker sum for each key, over a list of (post-pass-1) worker
dictionaries. -/
noncomputable def gsumOf (ws : List Metrics) (k : String) : ℝ :=
  (ws.map (fun w => findVal w k)).sum

/-- The whole reduction protocol over a list of per-worker metric
dictionaries, observed at the first worker: every worker runs
`pre_reduce_metrics` locally, the collective sums each key across workers,
and `dist_reduce_metrics` is the post-reduce pass. -/
noncomputable def runProtocol (ws : List Metrics) : Metrics :=
  dist_reduce_metrics ws.length (gsumOf (ws.map pre_reduce_metrics))
    (pre_reduce_metrics (ws.headD []))

/-! ## Shared decoupled weight-decay step

Both `DecoupledSGDW.sgdw` and `DecoupledAdamW.adamw` contain the identical
lines

    if weight_decay != 0:
        decay_factor = (lr / initial_lr) if initial_lr else 1.0
        param.mul_(1 - decay_factor * weight_decay)
-/

/-- Model of `decay_factor = (lr / initial_lr) if initial_lr else 1.0`. -/
def decayFactor (lr initial_lr : ℚ) : ℚ := if initial_lr ≠ 0 then lr / initial_lr else 1

/-- The in-place decoupled decay scaling of the parameter (a no-op when
`weight_decay == 0`). -/
noncomputable def applyDecay (weight_decay lr initial_lr : ℚ) (param : List ℝ) : List ℝ :=
  if weight_decay ≠ 0 then
    param.map (fun x => x * ((1 - decayFactor lr initial_lr * weight_decay : ℚ) : ℝ))
  else param

/-! ## `DecoupledSGDW` -/

/-- The momentum phase of `DecoupledSGDW.sgdw` for one parameter: returns the
effective descent direction `d_p` and the (possibly newly created) momentum
buffer slot. -/
noncomputable def sgdDirBuf (momentum dampening : ℚ) (nesterov : Bool)
    (d_p : List ℝ) (buf : Option (List ℝ)) : List ℝ × Option (List ℝ) :=
  if momentum ≠ 0 then
    match buf with
    | none =>
      let b := d_p
      (if nesterov then List.zipWith (fun d bv => d + (momentum : ℝ) * bv) d_p b else b, some b)
    | some b0 =>
      let b := List.zipWith (fun bv dv => (momentum : ℝ) * bv + ((1 - dampening : ℚ) : ℝ) * dv)
        b0 d_p
      (if nesterov then List.zipWith (fun d bv => d + (momentum : ℝ) * bv) d_p b else b, some b)
  else (d_p, buf)

/-- The body of `DecoupledSGDW.sgdw` for one parameter: momentum update, then
decoupled decay, then `param.add_(d_p, alpha=-lr)`. -/
noncomputable def sgdwSingle (weight_decay momentum lr initial_lr dampening : ℚ) (nesterov : Bool)
    (param d_p : List ℝ) (buf : Option (List ℝ)) : List ℝ × Option (List ℝ) :=
  let db := sgdDirBuf momentum dampening nesterov d_p buf
  (List.zipWith (fun pv dv => pv + (-(lr : ℝ)) * dv) (applyDecay weight_decay lr initial_lr param)
      db.1,
    db.2)

/-- Model of `DecoupledSGDW.sgdw` over the collected lists (the source loops over the
parameter index). -/
noncomputable def sgdw (weight_decay momentum lr initial_lr dampening : ℚ) (nesterov : Bool) :
    List (List ℝ) → List (List ℝ) → List (Option (List ℝ)) →
      List (List ℝ) × List (Option (List ℝ))
  | p :: ps, d :: ds, b :: bs =>
    let r := sgdwSingle weight_decay momentum lr initial_lr dampening nesterov p d b
    let rs := sgdw weight_decay momentum lr initial_lr dampening nesterov ps ds bs
    (r.1 :: rs.1, r.2 :: rs.2)
  | _, _, _ => ([], [])

/-- A parameter as `DecoupledSGDW.step` sees it: a data tensor and an optional
gradient tensor. -/
structure SParam where
  data : List ℝ
  grad : Option (List ℝ)

instance : Inhabited SParam := ⟨⟨[], none⟩⟩

/-- One parameter group of a `DecoupledSGDW` (`group['params']` holds indices
into the world's parameter list). -/
structure SGDGroup where
  params : List ℕ
  weight_decay : ℚ
  momentum : ℚ
  lr : ℚ
  initial_lr : ℚ
  dampening : ℚ
  nesterov : Bool

/-- The SGD optimizer state store: per parameter index, `none` when
`self.state[p]` has no `'momentum_buffer'` key yet, and `some b` when the key
is present with value `b` (`b = none` models Python `None`). -/
abbrev SGDStore := List (Option (Option (List ℝ)))

/-- The full mutable world of a `DecoupledSGDW`. -/
structure SGDWorld where
  params : List SParam
  state : SGDStore
  groups : List SGDGroup

/-- Write-back of `DecoupledSGDW.step`: updated parameter tensors and
`state['momentum_buffer'] = momentum_buffer` for every collected parameter. -/
noncomputable def sgdWriteBack (ps : List SParam) (st : SGDStore) :
    List ℕ → List (List ℝ) → List (Option (List ℝ)) → List SParam × SGDStore
  | i :: is, d :: ds, b :: bs =>
    sgdWriteBack (ps.set i ⟨d, (ps.getD i default).grad⟩) (st.set i (some b)) is ds bs
  | _, _, _ => (ps, st)

/-- One parameter-group iteration of `DecoupledSGDW.step`: collect the
parameters that carry a gradient, read the momentum-buffer slots
(`None` when `'momentum_buffer' not in state`), run `sgdw`, write back. -/
noncomputable def sgdStepGroup (ps : List SParam) (st : SGDStore) (g : SGDGroup) :
    List SParam × SGDStore :=
  let collected := g.params.filter (fun i => ((ps.getD i default).grad).isSome)
  let datas := collected.map (fun i => (ps.getD i default).data)
  let d_ps := collected.map (fun i => ((ps.getD i default).grad).getD [])
  let bufs := collected.map (fun i => (st.getD i none).bind id)
  let r := sgdw g.weight_decay g.momentum g.lr g.initial_lr g.dampening g.nesterov datas d_ps bufs
  sgdWriteBack ps st collected r.1 r.2

/-- Model of `DecoupledSGDW.step` (the optional loss closure is outside the model:
it only recomputes gradients and threads a return value through). -/
noncomputable def sgdStep (w : SGDWorld) : SGDWorld :=
  let r := w.groups.foldl (fun a g => sgdStepGroup a.1 a.2 g) (w.params, w.state)
  ⟨r.1, r.2, w.groups⟩

/-! ## `DecoupledAdamW` -/

/-- A gradient tensor together with its sparsity flag (`p.grad.is_sparse`). -/
structure PGrad where
  vals : List ℝ
  isSparse : Bool

/-- A parameter as `DecoupledAdamW.step` sees it. -/
structure AParam where
  data : List ℝ
  grad : Option PGrad
  requires_grad : Bool

instance : Inhabited AParam := ⟨⟨[], none, true⟩⟩

/-- The per-parameter Adam state (`state['step']`, `state['exp_avg']`,
`state['exp_avg_sq']`, and `state['max_exp_avg_sq']` when amsgrad). -/
structure AdamState where
  step : ℕ
  exp_avg : List ℝ
  exp_avg_sq : List ℝ
  max_exp_avg_sq : Option (List ℝ)

/-- One parameter group of a `DecoupledAdamW`. -/
structure AdamGroup where
  params : List ℕ
  lr : ℚ
  beta1 : ℚ
  beta2 : ℚ
  eps : ℚ
  weight_decay : ℚ
  initial_lr : ℚ
  amsgrad : Bool

instance : Inhabited AdamGroup := ⟨⟨[], 0, 0, 0, 0, 0, 0, false⟩⟩

/-- The Adam optimizer state store: `none` models `'step' not in self.state[p]`. -/
abbrev AdamStore := List (Option AdamState)

/-- The full mutable world of a `DecoupledAdamW`. -/
structure AdamWorld where
  params : List AParam
  state : AdamStore
  groups : List AdamGroup

/-- The loop body of `DecoupledAdamW.adamw` for one parameter. Returns the
updated `(param, exp_avg, exp_avg_sq, max_exp_avg_sq)`. -/
noncomputable def adamwSingle (beta1 beta2 lr initial_lr weight_decay eps : ℚ) (amsgrad : Bool)
    (param grad exp_avg exp_avg_sq maxEasq : List ℝ) (step : ℕ) :
    List ℝ × List ℝ × List ℝ × List ℝ :=
  let param1 := applyDecay weight_decay lr initial_lr param
  let bc1 : ℚ := 1 - beta1 ^ step
  let bc2 : ℚ := 1 - beta2 ^ step
  let exp_avg' := List.zipWith (fun e gv => (beta1 : ℝ) * e + ((1 - beta1 : ℚ) : ℝ) * gv)
    exp_avg grad
  let exp_avg_sq' :=
    List.zipWith (fun e gv => (beta2 : ℝ) * e + ((1 - beta2 : ℚ) : ℝ) * (gv * gv)) exp_avg_sq grad
  let maxE' := if amsgrad then List.zipWith max maxEasq exp_avg_sq' else maxEasq
  let denomSrc := if amsgrad then maxE' else exp_avg_sq'
  let denom := denomSrc.map (fun x => Real.sqrt x / Real.sqrt ((bc2 : ℚ) : ℝ) + ((eps : ℚ) : ℝ))
  let step_size : ℚ := lr / bc1
  let param2 := List.zipWith (fun pv qv => pv + (-((step_size : ℚ) : ℝ)) * qv) param1
    (List.zipWith (fun a b => a / b) exp_avg' denom)
  (param2, exp_avg', exp_avg_sq', maxE')

/-- Model of `DecoupledAdamW.adamw` over the collected lists. -/
noncomputable def adamw (beta1 beta2 lr initial_lr weight_decay eps : ℚ) (amsgrad : Bool) :
    List (List ℝ) → List (List ℝ) → List (List ℝ) → List (List ℝ) → List (List ℝ) → List ℕ →
      List (List ℝ × List ℝ × List ℝ × List ℝ)
  | p :: ps, gr :: grs, e :: es, q :: qs, mx :: mxs, s :: ss =>
    adamwSingle beta1 beta2 lr initial_lr weight_decay eps amsgrad p gr e q mx s ::
      adamw beta1 beta2 lr initial_lr weight_decay eps amsgrad ps grs es qs mxs ss
  | _, _, _, _, _, _ => []

/-- The lazy state initialization (`'step' not in state`, zeros like the
parameter, `max_exp_avg_sq` only when amsgrad) followed by the step-counter
increment `state['step'] += 1` for one collected parameter. -/
def adamStateNext (amsgrad : Bool) (p : AParam) (cur : Option AdamState) : AdamState :=
  let s0 : AdamState := match cur with
    | none =>
      { step := 0, exp_avg := p.data.map (fun _ => 0),
        exp_avg_sq := p.data.map (fun _ => 0),
        max_exp_avg_sq := if amsgrad then some (p.data.map (fun _ => 0)) else none }
    | some s => s
  { s0 with step := s0.step + 1 }

/-- The collection phase of one group iteration of `DecoupledAdamW.step`:
skips parameters with no gradient or with `requires_grad == False`, raises on
a sparse gradient (`Bool` result `false`), lazily initializes the state and
increments the step counter. Returns the mutated store, the collected indices
(in order) and the success flag; on a raise the store mutations made so far
persist and no further parameter is visited. -/
def collectGroup (amsgrad : Bool) (ps : List AParam) :
    AdamStore → List ℕ → AdamStore × List ℕ × Bool
  | st, [] => (st, [], true)
  | st, i :: rest =>
    let p := ps.getD i default
    match p.grad with
    | none => collectGroup amsgrad ps st rest
    | some gr =>
      if p.requires_grad = true then
        if gr.isSparse = true then (st, [], false)
        else
          let r := collectGroup amsgrad ps
            (st.set i (some (adamStateNext amsgrad p (st.getD i none)))) rest
          (r.1, i :: r.2.1, r.2.2)
      else collectGroup amsgrad ps st rest

/-- Write-back of one group iteration of `DecoupledAdamW.step`: new parameter
data and the state tensors mutated by `adamw` (the step counter was already
advanced during collection; `max_exp_avg_sq` is only touched when amsgrad). -/
noncomputable def adamWriteBack (amsgrad : Bool) (ps : List AParam) (st : AdamStore) :
    List ℕ → List (List ℝ × List ℝ × List ℝ × List ℝ) → List AParam × AdamStore
  | i :: is, r :: rs =>
    let p := ps.getD i default
    let s := (st.getD i none).getD ⟨0, [], [], none⟩
    let s' : AdamState :=
      { step := s.step, exp_avg := r.2.1, exp_avg_sq := r.2.2.1,
        max_exp_avg_sq := if amsgrad then some r.2.2.2 else s.max_exp_avg_sq }
    adamWriteBack amsgrad (ps.set i ⟨r.1, p.grad, p.requires_grad⟩) (st.set i (some s')) is rs
  | _, _ => (ps, st)

/-- One parameter-group iteration of `DecoupledAdamW.step`. On success the
update is applied; on a sparse-gradient raise the partially mutated store is
returned with the `false` flag and the parameter values untouched. -/
noncomputable def adamStepGroup (ps : List AParam) (st : AdamStore) (g : AdamGroup) :
    List AParam × AdamStore × Bool :=
  let c := collectGroup g.amsgrad ps st g.params
  let st1 := c.1
  let idxs := c.2.1
  if c.2.2 = true then
    let datas := idxs.map (fun i => (ps.getD i default).data)
    let grads := idxs.map (fun i => ((ps.getD i default).grad.getD ⟨[], false⟩).vals)
    let eas := idxs.map (fun i => ((st1.getD i none).getD ⟨0, [], [], none⟩).exp_avg)
    let easqs := idxs.map (fun i => ((st1.getD i none).getD ⟨0, [], [], none⟩).exp_avg_sq)
    let maxs := idxs.map
      (fun i => (((st1.getD i none).getD ⟨0, [], [], none⟩).max_exp_avg_sq).getD [])
    let steps := idxs.map (fun i => ((st1.getD i none).getD ⟨0, [], [], none⟩).step)
    let rs := adamw g.beta1 g.beta2 g.lr g.initial_lr g.weight_decay g.eps g.amsgrad
      datas grads eas easqs maxs steps
    let wb := adamWriteBack g.amsgrad ps st1 idxs rs
    (wb.1, wb.2, true)
  else (ps, st1, false)

/-- The group loop of `DecoupledAdamW.step`: a raise aborts the loop, with
all previous groups fully applied. -/
noncomputable def adamStepGroups (ps : List AParam) (st : AdamStore) :
    List AdamGroup → List AParam × AdamStore × Bool
  | [] => (ps, st, true)
  | g :: gs =>
    let r := adamStepGroup ps st g
    if r.2.2 = true then adamStepGroups r.1 r.2.1 gs
    else r

/-- Model of `DecoupledAdamW.step`. -/
noncomputable def adamStep (w : AdamWorld) : AdamWorld × Bool :=
  let r := adamStepGroups w.params w.state w.groups
  (⟨r.1, r.2.1, w.groups⟩, r.2.2)

/-! ## `DecoupledAdamW.report_per_parameter_metrics` and the metric catalogue -/

/-- The step tensor derived in `report_per_parameter_metrics` (lines 412–419):
`step_size * exp_avg.div(denom)` followed by
`step_tensor.add_(param, alpha=-weight_decay * decay_factor)`. -/
noncomputable def reportStepTensor (lr eps weight_decay initial_lr beta1 beta2 : ℚ)
    (s : AdamState) (param : List ℝ) : List ℝ :=
  let bc1 : ℚ := 1 - beta1 ^ s.step
  let bc2 : ℚ := 1 - beta2 ^ s.step
  let denom := s.exp_avg_sq.map (fun x => Real.sqrt x / Real.sqrt ((bc2 : ℚ) : ℝ) + ((eps : ℚ) : ℝ))
  let step_size : ℚ := lr / bc1
  let st0 := List.zipWith (fun e d => ((step_size : ℚ) : ℝ) * (e / d)) s.exp_avg denom
  List.zipWith (fun t pv => t + pv * (-(((weight_decay : ℚ) : ℝ) * ((decayFactor lr initial_lr : ℚ) : ℝ))))
    st0 param

/-- The `DecoupledAdamW.metric_functions` catalogue, in dict order. Each entry
is a pure function of `(param.data, param.grad, optim_state, step_tensor)`. -/
noncomputable def metricFns : List (String × (List ℝ → List ℝ → AdamState → List ℝ → ℝ)) :=
  [("l2_norm/moment", fun _ _ st _ => l2norm st.exp_avg),
   ("l2_norm/param", fun p _ _ _ => l2norm p),
   ("l2_norm/second_moment_sqrt", fun _ _ st _ => Real.sqrt (l2norm st.exp_avg_sq)),
   ("l2_norm/update", fun _ _ _ t => l2norm t),
   ("l2_norm/grad", fun _ g _ _ => l2norm g),
   ("cosine/update_grad", fun _ g _ t => cosine_sim g t),
   ("cosine/moment_grad", fun _ g st _ => cosine_sim g st.exp_avg)]

/-- Model of `DecoupledAdamW.report_per_parameter_metrics`: hyperparameters are read
from `self.param_groups[0]`; when the parameter has optimizer state, each
catalogue entry is stored under `f'{metric}/{name}'`. -/
noncomputable def report_per_parameter_metrics (groups : List AdamGroup)
    (pstate : Option AdamState) (param grad : List ℝ) (name : String) (m : Metrics) : Metrics :=
  let g0 := groups.getD 0 default
  match pstate with
  | none => m
  | some s =>
    let t := reportStepTensor g0.lr g0.eps g0.weight_decay g0.initial_lr g0.beta1 g0.beta2 s param
    metricFns.foldl (fun acc f => setM acc (f.1 ++ ("/" ++ name)) (f.2 param grad s t)) m

/-! ## Basic lemmas about the dictionary model -/

theorem keysOf_cons (a : String × ℝ) (t : Metrics) : keysOf (a :: t) = a.1 :: keysOf t := rfl

theorem findVal_cons (k0 : String) (v0 : ℝ) (t : Metrics) (k : String) :
    findVal ((k0, v0) :: t) k = if k0 = k then v0 else findVal t k := rfl

theorem findVal_eq_zero_of_not_mem {m : Metrics} {k : String} (h : k ∉ keysOf m) :
    findVal m k = 0 := by
  induction m with
  | nil => rfl
  | cons a t ih =>
    obtain ⟨k0, v0⟩ := a
    rw [keysOf_cons, List.mem_cons, not_or] at h
    rw [findVal_cons, if_neg (fun e => h.1 e.symm), ih h.2]

theorem findVal_replace_self {m : Metrics} {k : String} (v : ℝ) (h : k ∈ keysOf m) :
    findVal (m.map (fun p => if p.1 = k then (k, v) else p)) k = v := by
  induction m with
  | nil => simp [keysOf] at h
  | cons a t ih =>
    obtain ⟨k0, v0⟩ := a
    simp only [List.map_cons]
    by_cases ha : k0 = k
    · subst ha
      rw [if_pos rfl, findVal_cons, if_pos rfl]
    · rw [if_neg ha, findVal_cons, if_neg ha]
      refine ih ?_
      rcases List.mem_cons.mp h with h1 | h1
      · exact absurd h1.symm ha
      · exact h1

theorem findVal_replace_ne {m : Metrics} {k k' : String} (v : ℝ) (h : k' ≠ k) :
    findVal (m.map (fun p => if p.1 = k then (k, v) else p)) k' = findVal m k' := by
  induction m with
  | nil => rfl
  | cons a t ih =>
    obtain ⟨k0, v0⟩ := a
    simp only [List.map_cons]
    by_cases ha : k0 = k
    · subst ha
      rw [if_pos rfl, findVal_cons, findVal_cons, if_neg (fun e => h e.symm),
        if_neg (fun e => h e.symm), ih]
    · rw [if_neg ha, findVal_cons, findVal_cons, ih]

theorem keysOf_replace {m : Metrics} {k : String} (v : ℝ) :
    keysOf (m.map (fun p => if p.1 = k then (k, v) else p)) = keysOf m := by
  induction m with
  | nil => rfl
  | cons a t ih =>
    obtain ⟨k0, v0⟩ := a
    simp only [List.map_cons]
    by_cases ha : k0 = k
    · subst ha
      rw [if_pos rfl, keysOf_cons, keysOf_cons, ih]
    · rw [if_neg ha, keysOf_cons, keysOf_cons, ih]

theorem findVal_setM_self (m : Metrics) (k : String) (v : ℝ) : findVal (setM m k v) k = v := by
  unfold setM
  by_cases hmem : k ∈ keysOf m
  · rw [if_pos hmem, findVal_replace_self v hmem]
  · rw [if_neg hmem]
    induction m with
    | nil => simp [findVal]
    | cons a t ih =>
      obtain ⟨k0, v0⟩ := a
      rw [keysOf_cons, List.mem_cons, not_or] at hmem
      rw [List.cons_append, findVal_cons, if_neg (fun e => hmem.1 e.symm), ih hmem.2]

theorem findVal_setM_ne (m : Metrics) (k : String) (v : ℝ) {k' : String} (h : k' ≠ k) :
    findVal (setM m k v) k' = findVal m k' := by
  unfold setM
  by_cases hmem : k ∈ keysOf m
  · rw [if_pos hmem, findVal_replace_ne v h]
  · rw [if_neg hmem]
    induction m with
    | nil => simp [findVal, if_neg (fun e : k = k' => h e.symm)]
    | cons a t ih =>
      obtain ⟨k0, v0⟩ := a
      rw [keysOf_cons, List.mem_cons, not_or] at hmem
      rw [List.cons_append, findVal_cons, findVal_cons, ih hmem.2]

theorem keysOf_setM {m : Metrics} {k : String} (v : ℝ) (h : k ∈ keysOf m) :
    keysOf (setM m k v) = keysOf m := by
  rw [setM, if_pos h, keysOf_replace]

/-! ## Fold-locality machinery

Every loop iteration of the two reduction passes writes only the value of the
key it is visiting; these lemmas track a single key's value through the fold. -/

theorem findVal_foldl_of_not_mem (F : Metrics → String → Metrics)
    (hF : ∀ m a k', k' ≠ a → findVal (F m a) k' = findVal m k')
    (ks : List String) (k : String) (h : k ∉ ks) (m : Metrics) :
    findVal (ks.foldl F m) k = findVal m k := by
  induction ks generalizing m with
  | nil => rfl
  | cons a t ih =>
    have h1 : k ≠ a := fun e => h (e ▸ List.mem_cons_self a t)
    have h2 : k ∉ t := fun e => h (List.mem_cons_of_mem a e)
    rw [List.foldl_cons, ih h2, hF m a k h1]

theorem foldl_split_val (F : Metrics → String → Metrics)
    (hF : ∀ m a k', k' ≠ a → findVal (F m a) k' = findVal m k')
    (L1 L2 : List String) (k : String) (h2 : k ∉ L2) (m : Metrics) :
    findVal ((L1 ++ k :: L2).foldl F m) k = findVal (F (L1.foldl F m) k) k := by
  rw [List.foldl_append, List.foldl_cons, findVal_foldl_of_not_mem F hF L2 k h2]

theorem keysOf_foldl (F : Metrics → String → Metrics)
    (hF : ∀ m a, a ∈ keysOf m → keysOf (F m a) = keysOf m)
    (ks : List String) (m : Metrics) (h : ∀ a ∈ ks, a ∈ keysOf m) :
    keysOf (ks.foldl F m) = keysOf m := by
  induction ks generalizing m with
  | nil => rfl
  | cons a t ih =>
    have hm := h a (List.mem_cons_self a t)
    rw [List.foldl_cons,
      ih (F m a) (fun b hb => by rw [hF m a hm]; exact h b (List.mem_cons_of_mem a hb)),
      hF m a hm]

theorem findVal_preReduceStep_ne : ∀ (m : Metrics) (a k' : String), k' ≠ a →
    findVal (preReduceStep m a) k' = findVal m k' := by
  intro m a k' h
  unfold preReduceStep
  split_ifs <;> first | rfl | rw [findVal_setM_ne _ _ _ h]

theorem findVal_distReduceStep_ne (n : ℕ) (g : String → ℝ) : ∀ (m : Metrics) (a k' : String),
    k' ≠ a → findVal (distReduceStep n g m a) k' = findVal m k' := by
  intro m a k' h
  unfold distReduceStep
  split_ifs <;> rw [findVal_setM_ne _ _ _ h]

theorem keysOf_preReduceStep (m : Metrics) (a : String) (h : a ∈ keysOf m) :
    keysOf (preReduceStep m a) = keysOf m := by
  unfold preReduceStep
  split_ifs <;> first | rfl | rw [keysOf_setM _ h]

theorem keysOf_distReduceStep (n : ℕ) (g : String → ℝ) (m : Metrics) (a : String)
    (h : a ∈ keysOf m) : keysOf (distReduceStep n g m a) = keysOf m := by
  unfold distReduceStep
  split_ifs <;> rw [keysOf_setM _ h]

theorem sortedKeys_perm (ks : List String) : (sortedKeys ks).Perm ks :=
  List.filter_append_perm _ ks

theorem keysOf_pre_reduce (m : Metrics) : keysOf (pre_reduce_metrics m) = keysOf m :=
  keysOf_foldl _ keysOf_preReduceStep _ m
    (fun _ ha => ((sortedKeys_perm (keysOf m)).mem_iff).mp ha)

theorem keysOf_dist_reduce (n : ℕ) (g : String → ℝ) (m : Metrics) :
    keysOf (dist_reduce_metrics n g m) = keysOf m :=
  keysOf_foldl _ (keysOf_distReduceStep n g) _ m (fun _ ha => ha)

/-! ## String lemmas -/

theorem isPrefixOf_append_self (l t : List Char) : l.isPrefixOf (l ++ t) = true := by
  induction l with
  | nil => cases t <;> rfl
  | cons a as ih => simp [List.isPrefixOf, ih]

theorem pyStartsWith_l2_append (s : String) : pyStartsWith ("l2_norm/" ++ s) "l2_norm" = true := by
  have h : ("l2_norm/" ++ s).toList = "l2_norm".toList ++ ('/' :: s.toList) := by
    show ("l2_norm/" ++ s).data = "l2_norm".data ++ ('/' :: s.data)
    rw [String.data_append]
    rfl
  rw [pyStartsWith, h, isPrefixOf_append_self]

theorem pyContains_of_pyStartsWith {s p : String} (h : pyStartsWith s p = true) :
    pyContains s p = true := by
  rw [pyContains, List.any_eq_true]
  refine ⟨s.toList, ?_, h⟩
  rw [List.mem_tails]

theorem pyStartsWith_l2_of_cosine {k : String} (h : pyStartsWith k "cosine" = true) :
    pyStartsWith k "l2_norm" = false := by
  rw [pyStartsWith] at h ⊢
  cases hk : k.toList with
  | nil => rw [hk] at h; exact absurd h (by decide)
  | cons c cs =>
    rw [hk] at h
    have hc : c = 'c' := by
      by_contra hne
      rw [show ("cosine".toList) = 'c' :: "osine".toList from rfl, List.isPrefixOf] at h
      rw [Bool.and_eq_true, beq_iff_eq] at h
      exact hne h.1.symm
    subst hc
    rw [show ("l2_norm".toList) = 'l' :: "2_norm".toList from rfl, List.isPrefixOf]
    simp

/-! ## Master lemmas: the value of one key after each reduction pass -/

theorem foldl_pre_val_l2_mem (L : List String) (hnd : L.Nodup) {k : String} (hk : k ∈ L)
    (hl2 : pyStartsWith k "l2_norm" = true) (m : Metrics) :
    findVal (L.foldl preReduceStep m) k = findVal m k ^ 2 := by
  obtain ⟨T1, T2, hsplit⟩ := List.append_of_mem hk
  subst hsplit
  obtain ⟨_, hnd2, hdisj⟩ := List.nodup_append.mp hnd
  have hT2 : k ∉ T2 := (List.nodup_cons.mp hnd2).1
  have hT1 : k ∉ T1 := fun hmem => hdisj hmem (List.mem_cons_self k T2)
  rw [foldl_split_val _ findVal_preReduceStep_ne _ _ _ hT2, preReduceStep, if_pos hl2,
    findVal_setM_self, findVal_foldl_of_not_mem _ findVal_preReduceStep_ne _ _ hT1]

theorem pre_reduce_val_l2 {m : Metrics} {k : String} (hnd : (keysOf m).Nodup)
    (hk : k ∈ keysOf m) (hl2 : pyStartsWith k "l2_norm" = true) :
    findVal (pre_reduce_metrics m) k = findVal m k ^ 2 :=
  foldl_pre_val_l2_mem _ (((sortedKeys_perm (keysOf m)).nodup_iff).mpr hnd)
    (((sortedKeys_perm (keysOf m)).mem_iff).mpr hk) hl2 m

theorem pre_reduce_val_cos {m : Metrics} {k : String} (hnd : (keysOf m).Nodup)
    (hcos : pyStartsWith k "cosine" = true)
    (hkal2 : pyStartsWith (cosKeyA k) "l2_norm" = true)
    (hkbl2 : pyStartsWith (cosKeyB k) "l2_norm" = true)
    (horder : ∃ L1 L2, sortedKeys (keysOf m) = L1 ++ k :: L2 ∧
      cosKeyA k ∈ L1 ∧ cosKeyB k ∈ L1) :
    findVal (pre_reduce_metrics m) k =
      findVal m k *
        (Real.sqrt (findVal m (cosKeyA k) ^ 2) * Real.sqrt (findVal m (cosKeyB k) ^ 2)) := by
  obtain ⟨L1, L2, hsplit, hka1, hkb1⟩ := horder
  have hndS : (sortedKeys (keysOf m)).Nodup := ((sortedKeys_perm (keysOf m)).nodup_iff).mpr hnd
  rw [hsplit] at hndS
  obtain ⟨hnd1, hnd2, hdisj⟩ := List.nodup_append.mp hndS
  have hL2 : k ∉ L2 := (List.nodup_cons.mp hnd2).1
  have hL1 : k ∉ L1 := fun hmem => hdisj hmem (List.mem_cons_self k L2)
  rw [pre_reduce_metrics, hsplit, foldl_split_val _ findVal_preReduceStep_ne _ _ _ hL2,
    preReduceStep, if_neg (by rw [pyStartsWith_l2_of_cosine hcos]; exact Bool.false_ne_true),
    if_pos hcos, findVal_setM_self,
    findVal_foldl_of_not_mem _ findVal_preReduceStep_ne _ _ hL1,
    foldl_pre_val_l2_mem L1 hnd1 hka1 hkal2, foldl_pre_val_l2_mem L1 hnd1 hkb1 hkbl2]

theorem pre_reduce_val_other {m : Metrics} {k : String} (hnd : (keysOf m).Nodup)
    (hk : k ∈ keysOf m) (h1 : pyStartsWith k "l2_norm" = false)
    (h2 : pyStartsWith k "cosine" = false) :
    findVal (pre_reduce_metrics m) k = findVal m k := by
  have hndS : (sortedKeys (keysOf m)).Nodup := ((sortedKeys_perm (keysOf m)).nodup_iff).mpr hnd
  have hmem : k ∈ sortedKeys (keysOf m) := ((sortedKeys_perm (keysOf m)).mem_iff).mpr hk
  obtain ⟨L1, L2, hsplit⟩ := List.append_of_mem hmem
  rw [hsplit] at hndS
  obtain ⟨_, hnd2, hdisj⟩ := List.nodup_append.mp hndS
  have hL2 : k ∉ L2 := (List.nodup_cons.mp hnd2).1
  have hL1 : k ∉ L1 := fun hm => hdisj hm (List.mem_cons_self k L2)
  rw [pre_reduce_metrics, hsplit, foldl_split_val _ findVal_preReduceStep_ne _ _ _ hL2,
    preReduceStep, if_neg (by rw [h1]; exact Bool.false_ne_true),
    if_neg (by rw [h2]; exact Bool.false_ne_true),
    findVal_foldl_of_not_mem _ findVal_preReduceStep_ne _ _ hL1]

theorem foldl_dist_val_l2_mem (n : ℕ) (g : String → ℝ) (L : List String) (hnd : L.Nodup)
    {k : String} (hk : k ∈ L) (hl2 : pyStartsWith k "l2_norm" = true) (m : Metrics) :
    findVal (L.foldl (distReduceStep n g) m) k =
      Real.sqrt (if 1 < n then g k else findVal m k) := by
  obtain ⟨T1, T2, hsplit⟩ := List.append_of_mem hk
  subst hsplit
  obtain ⟨_, hnd2, hdisj⟩ := List.nodup_append.mp hnd
  have hT2 : k ∉ T2 := (List.nodup_cons.mp hnd2).1
  have hT1 : k ∉ T1 := fun hmem => hdisj hmem (List.mem_cons_self k T2)
  rw [foldl_split_val _ (findVal_distReduceStep_ne n g) _ _ _ hT2, distReduceStep]
  simp only [if_pos hl2]
  rw [findVal_setM_self, findVal_foldl_of_not_mem _ (findVal_distReduceStep_ne n g) _ _ hT1]

theorem dist_reduce_val_l2 (n : ℕ) (g : String → ℝ) {m : Metrics} {k : String}
    (hnd : (keysOf m).Nodup) (hk : k ∈ keysOf m) (hl2 : pyStartsWith k "l2_norm" = true) :
    findVal (dist_reduce_metrics n g m) k = Real.sqrt (if 1 < n then g k else findVal m k) :=
  foldl_dist_val_l2_mem n g _ hnd hk hl2 m

theorem dist_reduce_val_cos (n : ℕ) (g : String → ℝ) {m : Metrics} {k : String}
    (hnd : (keysOf m).Nodup) (hcos : pyStartsWith k "cosine" = true)
    (hkal2 : pyStartsWith (cosKeyA k) "l2_norm" = true)
    (hkbl2 : pyStartsWith (cosKeyB k) "l2_norm" = true)
    (horder : ∃ K1 K2, keysOf m = K1 ++ k :: K2 ∧ cosKeyA k ∈ K1 ∧ cosKeyB k ∈ K1) :
    findVal (dist_reduce_metrics n g m) k =
      (if 1 < n then g k else findVal m k) /
        (Real.sqrt (if 1 < n then g (cosKeyA k) else findVal m (cosKeyA k)) *
          Real.sqrt (if 1 < n then g (cosKeyB k) else findVal m (cosKeyB k))) := by
  obtain ⟨K1, K2, hsplit, hka1, hkb1⟩ := horder
  have hndK := hnd
  rw [hsplit] at hndK
  obtain ⟨hnd1, hnd2, hdisj⟩ := List.nodup_append.mp hndK
  have hK2 : k ∉ K2 := (List.nodup_cons.mp hnd2).1
  have hK1 : k ∉ K1 := fun hmem => hdisj hmem (List.mem_cons_self k K2)
  have hn1 : ¬ (pyStartsWith k "l2_norm" = true) := by
    rw [pyStartsWith_l2_of_cosine hcos]; exact Bool.false_ne_true
  rw [dist_reduce_metrics, hsplit, foldl_split_val _ (findVal_distReduceStep_ne n g) _ _ _ hK2,
    distReduceStep]
  simp only [if_neg hn1, if_pos hcos]
  rw [findVal_setM_self, findVal_foldl_of_not_mem _ (findVal_distReduceStep_ne n g) _ _ hK1,
    foldl_dist_val_l2_mem n g K1 hnd1 hka1 hkal2, foldl_dist_val_l2_mem n g K1 hnd1 hkb1 hkbl2]

theorem dist_reduce_val_other (n : ℕ) (g : String → ℝ) {m : Metrics} {k : String}
    (hnd : (keysOf m).Nodup) (hk : k ∈ keysOf m) (h1 : pyStartsWith k "l2_norm" = false)
    (h2 : pyStartsWith k "cosine" = false) :
    findVal (dist_reduce_metrics n g m) k = (if 1 < n then g k else findVal m k) / (n : ℝ) := by
  obtain ⟨K1, K2, hsplit⟩ := List.append_of_mem hk
  have hndK := hnd
  rw [hsplit] at hndK
  obtain ⟨_, hnd2, hdisj⟩ := List.nodup_append.mp hndK
  have hK2 : k ∉ K2 := (List.nodup_cons.mp hnd2).1
  have hK1 : k ∉ K1 := fun hmem => hdisj hmem (List.mem_cons_self k K2)
  have hn1 : ¬ (pyStartsWith k "l2_norm" = true) := by rw [h1]; exact Bool.false_ne_true
  have hn2 : ¬ (pyStartsWith k "cosine" = true) := by rw [h2]; exact Bool.false_ne_true
  rw [dist_reduce_metrics, hsplit, foldl_split_val _ (findVal_distReduceStep_ne n g) _ _ _ hK2,
    distReduceStep]
  simp only [if_neg hn1, if_neg hn2]
  rw [findVal_setM_self, findVal_foldl_of_not_mem _ (findVal_distReduceStep_ne n g) _ _ hK1]

/-! ## Relating the original key order to the `pre_reduce_metrics` sort order

If the two referenced `l2_norm` keys of a cosine key precede it in the
dictionary's insertion order, they also precede it in the stably-sorted order
used by `pre_reduce_metrics` (the sort only moves `l2_norm` keys forward). -/

theorem mem_filter_contains_of_l2 {K : List String} {ka : String} (hka : ka ∈ K)
    (hl2 : pyStartsWith ka "l2_norm" = true) :
    ka ∈ K.filter (fun s => pyContains s "l2_norm") :=
  List.mem_filter.mpr ⟨hka, pyContains_of_pyStartsWith hl2⟩

theorem sortedKeys_split_of_split {K1 K2 : List String} {k ka kb : String}
    (hka : ka ∈ K1) (hkb : kb ∈ K1)
    (hkal2 : pyStartsWith ka "l2_norm" = true) (hkbl2 : pyStartsWith kb "l2_norm" = true) :
    ∃ L1 L2, sortedKeys (K1 ++ k :: K2) = L1 ++ k :: L2 ∧ ka ∈ L1 ∧ kb ∈ L1 := by
  by_cases hc : pyContains k "l2_norm" = true
  · refine ⟨K1.filter (fun s => pyContains s "l2_norm"),
      K2.filter (fun s => pyContains s "l2_norm") ++
        (K1 ++ k :: K2).filter (fun s => !(pyContains s "l2_norm")), ?_,
      mem_filter_contains_of_l2 hka hkal2, mem_filter_contains_of_l2 hkb hkbl2⟩
    rw [sortedKeys, List.filter_append, List.filter_cons, if_pos hc]
    simp [List.append_assoc]
  · refine ⟨K1.filter (fun s => pyContains s "l2_norm") ++
        (K2.filter (fun s => pyContains s "l2_norm") ++
          K1.filter (fun s => !(pyContains s "l2_norm"))),
      K2.filter (fun s => !(pyContains s "l2_norm")), ?_, ?_, ?_⟩
    · rw [sortedKeys, List.filter_append, List.filter_cons, if_neg hc, List.filter_append,
        List.filter_cons]
      have hcb : (!(pyContains k "l2_norm")) = true := by
        simp only [Bool.not_eq_true] at hc
        simp [hc]
      rw [if_pos hcb]
      simp [List.append_assoc]
    · exact List.mem_append_left _ (mem_filter_contains_of_l2 hka hkal2)
    · exact List.mem_append_left _ (mem_filter_contains_of_l2 hkb hkbl2)

/-! ## Vector algebra: shard additivity of squared norms and dot products -/

theorem sumSq_append (u v : List ℝ) : sumSq (u ++ v) = sumSq u + sumSq v := by
  rw [sumSq, sumSq, sumSq, List.map_append, List.sum_append]

theorem sumSq_nonneg (v : List ℝ) : 0 ≤ sumSq v := by
  rw [sumSq]
  refine List.sum_nonneg ?_
  intro x hx
  obtain ⟨y, _, rfl⟩ := List.mem_map.mp hx
  positivity

theorem l2norm_nonneg (v : List ℝ) : 0 ≤ l2norm v := Real.sqrt_nonneg _

theorem l2norm_sq (v : List ℝ) : l2norm v ^ 2 = sumSq v := Real.sq_sqrt (sumSq_nonneg v)

theorem sqrt_l2norm_sq (v : List ℝ) : Real.sqrt (l2norm v ^ 2) = l2norm v :=
  Real.sqrt_sq (l2norm_nonneg v)

theorem dot_append {u v : List ℝ} (u' v' : List ℝ) (h : u.length = v.length) :
    dot (u ++ u') (v ++ v') = dot u v + dot u' v' := by
  rw [dot, dot, dot, List.zipWith_append _ _ _ _ _ h, List.sum_append]

theorem sumSq_eq_zero_iff {v : List ℝ} : sumSq v = 0 ↔ ∀ x ∈ v, x = 0 := by
  induction v with
  | nil => simp [sumSq]
  | cons x xs ih =>
    rw [show sumSq (x :: xs) = x ^ 2 + sumSq xs from rfl]
    constructor
    · intro h
      have hx2 : (0 : ℝ) ≤ x ^ 2 := sq_nonneg x
      have hxs := sumSq_nonneg xs
      have h1 : x ^ 2 = 0 := by linarith
      have h2 : sumSq xs = 0 := by linarith
      intro y hy
      rcases List.mem_cons.mp hy with rfl | hy2
      · exact pow_eq_zero_iff (n := 2) (by norm_num) |>.mp h1
      · exact ih.mp h2 y hy2
    · intro h
      have hx : x = 0 := h x (List.mem_cons_self x xs)
      have hxs : sumSq xs = 0 := ih.mpr (fun y hy => h y (List.mem_cons_of_mem x hy))
      rw [hx, hxs]
      norm_num

theorem dot_cons (x y : ℝ) (xs ys : List ℝ) :
    dot (x :: xs) (y :: ys) = x * y + dot xs ys := by
  rw [dot, dot, List.zipWith_cons_cons, List.sum_cons]

theorem dot_eq_zero_left : ∀ (v w : List ℝ), sumSq v = 0 → dot v w = 0
  | [], w, _ => by cases w <;> rfl
  | _ :: _, [], _ => rfl
  | x :: xs, y :: ys, h => by
    have hz := sumSq_eq_zero_iff.mp h
    have hx : x = 0 := hz x (List.mem_cons_self _ _)
    have hxs : sumSq xs = 0 :=
      sumSq_eq_zero_iff.mpr (fun z hz2 => hz z (List.mem_cons_of_mem _ hz2))
    rw [dot_cons, hx, zero_mul, zero_add, dot_eq_zero_left xs ys hxs]

theorem dot_eq_zero_right : ∀ (v w : List ℝ), sumSq w = 0 → dot v w = 0
  | [], w, _ => by cases w <;> rfl
  | _ :: _, [], _ => rfl
  | x :: xs, y :: ys, h => by
    have hz := sumSq_eq_zero_iff.mp h
    have hy : y = 0 := hz y (List.mem_cons_self _ _)
    have hys : sumSq ys = 0 :=
      sumSq_eq_zero_iff.mpr (fun z hz2 => hz z (List.mem_cons_of_mem _ hz2))
    rw [dot_cons, hy, mul_zero, zero_add, dot_eq_zero_right xs ys hys]

theorem l2norm_eq_zero_iff {v : List ℝ} : l2norm v = 0 ↔ sumSq v = 0 := by
  rw [l2norm, Real.sqrt_eq_zero (sumSq_nonneg v)]

theorem cosine_mul_norms (u v : List ℝ) :
    cosine_sim u v * (l2norm u * l2norm v) = dot u v := by
  by_cases h : l2norm u * l2norm v = 0
  · rw [h, mul_zero]
    rcases mul_eq_zero.mp h with h1 | h1
    · exact (dot_eq_zero_left u v (l2norm_eq_zero_iff.mp h1)).symm
    · exact (dot_eq_zero_right u v (l2norm_eq_zero_iff.mp h1)).symm
  · rw [cosine_sim, div_mul_cancel₀ _ h]

/-! ## Dictionary extensionality -/

theorem metrics_ext {m1 m2 : Metrics} (hk : keysOf m1 = keysOf m2)
    (hnd : (keysOf m1).Nodup) (hv : ∀ k ∈ keysOf m1, findVal m1 k = findVal m2 k) :
    m1 = m2 := by
  induction m1 generalizing m2 with
  | nil =>
    cases m2 with
    | nil => rfl
    | cons b t2 => exact absurd hk (by simp [keysOf])
  | cons a t ih =>
    obtain ⟨k0, v0⟩ := a
    cases m2 with
    | nil => exact absurd hk (by simp [keysOf])
    | cons b t2 =>
      obtain ⟨k1, v1⟩ := b
      rw [keysOf_cons, keysOf_cons] at hk
      injection hk with hk01 hkt
      subst hk01
      have hv0 := hv k0 (by rw [keysOf_cons]; exact List.mem_cons_self _ _)
      rw [findVal_cons, findVal_cons, if_pos rfl, if_pos rfl] at hv0
      rw [keysOf_cons] at hnd
      obtain ⟨hk0t, hndt⟩ := List.nodup_cons.mp hnd
      have ht : t = t2 := by
        refine ih hkt hndt ?_
        intro k hkmem
        have hne : k0 ≠ k := fun e => hk0t (e ▸ hkmem)
        have hvk := hv k (by rw [keysOf_cons]; exact List.mem_cons_of_mem _ hkmem)
        rw [findVal_cons, findVal_cons, if_neg hne, if_neg hne] at hvk
        exact hvk
      rw [hv0, ht]

/-! ## Claim C2: exact reconstruction of global L2 norms -/

/-- Claim C2. For every metrics mapping, the pre-reduce pass replaces each
`l2_norm/*` scalar by its square, and the post-reduce pass replaces the
cross-worker sum of those squares by its square root; hence for a vector split
across workers as local norms the protocol yields the exact global norm
(e.g. local norms `3` and `4` on two workers yield `sqrt(9+16) = 5`). -/
theorem l2_norm_roundtrip_exact (w0 : Metrics) (ws' : List Metrics) (K : List String)
    (k : String) (hnd : K.Nodup) (hkeys : ∀ w ∈ w0 :: ws', keysOf w = K) (hk : k ∈ K)
    (hl2 : pyStartsWith k "l2_norm" = true) :
    (∀ w ∈ w0 :: ws', findVal (pre_reduce_metrics w) k = findVal w k ^ 2) ∧
    findVal (runProtocol (w0 :: ws')) k =
      Real.sqrt (((w0 :: ws').map (fun w => findVal w k ^ 2)).sum) := by
  have hpre : ∀ w ∈ w0 :: ws', findVal (pre_reduce_metrics w) k = findVal w k ^ 2 := by
    intro w hw
    have hkw := hkeys w hw
    exact pre_reduce_val_l2 (by rw [hkw]; exact hnd) (by rw [hkw]; exact hk) hl2
  refine ⟨hpre, ?_⟩
  have hk0 := hkeys w0 (List.mem_cons_self _ _)
  rw [runProtocol, show (w0 :: ws').headD [] = w0 from rfl,
    dist_reduce_val_l2 _ _ (by rw [keysOf_pre_reduce, hk0]; exact hnd)
      (by rw [keysOf_pre_reduce, hk0]; exact hk) hl2]
  by_cases hn : 1 < (w0 :: ws').length
  · rw [if_pos hn, gsumOf, List.map_map]
    refine congrArg Real.sqrt (congrArg List.sum (List.map_congr_left ?_))
    intro w hw
    exact hpre w hw
  · rw [if_neg hn]
    cases ws' with
    | cons a t => exact absurd (by simp) hn
    | nil =>
      rw [hpre w0 (List.mem_cons_self _ _)]
      simp

/-- Witness for C2: the spec's concrete example, worker A holding local norm
`3` and worker B holding local norm `4`, reconstructing the global norm `5`. -/
theorem l2_norm_roundtrip_exact_witness :
    findVal
        (runProtocol [[("l2_norm/param/layer1", (3 : ℝ))], [("l2_norm/param/layer1", (4 : ℝ))]])
        "l2_norm/param/layer1" = 5 := by
  have h := (l2_norm_roundtrip_exact [("l2_norm/param/layer1", (3 : ℝ))]
    [[("l2_norm/param/layer1", (4 : ℝ))]] ["l2_norm/param/layer1"] "l2_norm/param/layer1"
    (by decide)
    (by
      intro w hw
      rcases List.mem_cons.mp hw with rfl | hw2
      · rfl
      · rcases List.mem_cons.mp hw2 with rfl | hw3
        · rfl
        · exact absurd hw3 (List.not_mem_nil _))
    (by decide) (by decide)).2
  rw [h]
  rw [show ([[("l2_norm/param/layer1", (3 : ℝ))], [("l2_norm/param/layer1", (4 : ℝ))]].map
      (fun w => findVal w "l2_norm/param/layer1" ^ 2)).sum = (3 : ℝ) ^ 2 + ((4 : ℝ) ^ 2 + 0)
    from rfl]
  rw [show (3 : ℝ) ^ 2 + ((4 : ℝ) ^ 2 + 0) = 5 ^ 2 by norm_num]
  exact Real.sqrt_sq (by norm_num)

/-! ## Claim C1: exact reconstruction of global cosine similarities -/

theorem sumSq_flatten : ∀ (l : List (List ℝ)), sumSq l.flatten = (l.map sumSq).sum
  | [] => rfl
  | x :: xs => by
    rw [List.flatten_cons, sumSq_append, List.map_cons, List.sum_cons, sumSq_flatten xs]

theorem dot_flatten : ∀ (sh : List (List ℝ × List ℝ)), (∀ q ∈ sh, q.1.length = q.2.length) →
    dot (sh.map Prod.fst).flatten (sh.map Prod.snd).flatten =
      (sh.map (fun q => dot q.1 q.2)).sum
  | [], _ => rfl
  | q :: t, h => by
    rw [List.map_cons, List.map_cons, List.flatten_cons, List.flatten_cons,
      dot_append _ _ (h q (List.mem_cons_self q t)), List.map_cons, List.sum_cons,
      dot_flatten t (fun r hr => h r (List.mem_cons_of_mem q hr))]

/-- The local metrics a worker computes for one shard of the pair of global
vectors behind the `cosine/update_grad` entry of a layer: the two local norms
(inserted first, as the catalogue does) and the local cosine similarity. -/
noncomputable def shardMetrics (a b : List ℝ) : Metrics :=
  [("l2_norm/update/layer1", l2norm a), ("l2_norm/grad/layer1", l2norm b),
   ("cosine/update_grad/layer1", cosine_sim a b)]

theorem shardMetrics_keys (a b : List ℝ) :
    keysOf (shardMetrics a b) =
      ["l2_norm/update/layer1", "l2_norm/grad/layer1", "cosine/update_grad/layer1"] := rfl

theorem pre_shard_normU (a b : List ℝ) :
    findVal (pre_reduce_metrics (shardMetrics a b)) "l2_norm/update/layer1" = sumSq a := by
  rw [pre_reduce_val_l2 (m := shardMetrics a b) (by rw [shardMetrics_keys]; decide)
      (by rw [shardMetrics_keys]; decide) (by decide),
    show findVal (shardMetrics a b) "l2_norm/update/layer1" = l2norm a from rfl, l2norm_sq]

theorem pre_shard_normG (a b : List ℝ) :
    findVal (pre_reduce_metrics (shardMetrics a b)) "l2_norm/grad/layer1" = sumSq b := by
  rw [pre_reduce_val_l2 (m := shardMetrics a b) (by rw [shardMetrics_keys]; decide)
      (by rw [shardMetrics_keys]; decide) (by decide),
    show findVal (shardMetrics a b) "l2_norm/grad/layer1" = l2norm b from rfl, l2norm_sq]

theorem pre_shard_cos (a b : List ℝ) :
    findVal (pre_reduce_metrics (shardMetrics a b)) "cosine/update_grad/layer1" = dot a b := by
  rw [pre_reduce_val_cos (m := shardMetrics a b) (k := "cosine/update_grad/layer1")
      (by rw [shardMetrics_keys]; decide) (by decide) (by decide) (by decide)
      ⟨["l2_norm/update/layer1", "l2_norm/grad/layer1"], [],
        by rw [show keysOf (shardMetrics a b) =
            ["l2_norm/update/layer1", "l2_norm/grad/layer1", "cosine/update_grad/layer1"]
          from rfl]; decide, by decide, by decide⟩,
    show findVal (shardMetrics a b) "cosine/update_grad/layer1" = cosine_sim a b from rfl,
    show findVal (shardMetrics a b) (cosKeyA "cosine/update_grad/layer1") = l2norm a from rfl,
    show findVal (shardMetrics a b) (cosKeyB "cosine/update_grad/layer1") = l2norm b from rfl,
    sqrt_l2norm_sq, sqrt_l2norm_sq, cosine_mul_norms]

/-- Claim C1 (amended). Pre-reduce multiplies each cosine entry by the product
of the square roots of the (already-squared) referenced `l2_norm` entries —
recovering the raw local dot product; and, provided the referenced `l2_norm`
keys precede the cosine key in the dictionary order (as the metric catalogue
guarantees), the post-reduce pass divides the summed raw dot product by the
product of the reconstructed global norms, so that for shards of a pair of
global vectors the protocol returns the exact global cosine similarity of the
concatenated vectors. -/
theorem cosine_reduction_exact :
    (∀ (m : Metrics) (k : String), (keysOf m).Nodup → pyStartsWith k "cosine" = true →
      pyStartsWith (cosKeyA k) "l2_norm" = true → pyStartsWith (cosKeyB k) "l2_norm" = true →
      (∃ K1 K2, keysOf m = K1 ++ k :: K2 ∧ cosKeyA k ∈ K1 ∧ cosKeyB k ∈ K1) →
      findVal (pre_reduce_metrics m) k =
        findVal m k *
          (Real.sqrt (findVal m (cosKeyA k) ^ 2) * Real.sqrt (findVal m (cosKeyB k) ^ 2))) ∧
    (∀ (q0 : List ℝ × List ℝ) (rest : List (List ℝ × List ℝ)),
      (∀ q ∈ q0 :: rest, q.1.length = q.2.length) →
      findVal (runProtocol ((q0 :: rest).map (fun q => shardMetrics q.1 q.2)))
          "cosine/update_grad/layer1" =
        cosine_sim ((q0 :: rest).map Prod.fst).flatten ((q0 :: rest).map Prod.snd).flatten) := by
  constructor
  · intro m k hnd hcos hkal2 hkbl2 horder
    obtain ⟨K1, K2, hsplit, hka1, hkb1⟩ := horder
    exact pre_reduce_val_cos hnd hcos hkal2 hkbl2
      (hsplit ▸ sortedKeys_split_of_split hka1 hkb1 hkal2 hkbl2)
  · intro q0 rest hlen
    rw [runProtocol,
      show ((q0 :: rest).map (fun q => shardMetrics q.1 q.2)).headD [] =
        shardMetrics q0.1 q0.2 from rfl,
      dist_reduce_val_cos _ _ (m := pre_reduce_metrics (shardMetrics q0.1 q0.2))
        (k := "cosine/update_grad/layer1")
        (by rw [keysOf_pre_reduce, shardMetrics_keys]; decide) (by decide) (by decide)
        (by decide)
        ⟨["l2_norm/update/layer1", "l2_norm/grad/layer1"], [],
          by rw [keysOf_pre_reduce, shardMetrics_keys]; decide, by decide, by decide⟩]
    by_cases hn : 1 < ((q0 :: rest).map (fun q => shardMetrics q.1 q.2)).length
    · simp only [if_pos hn, gsumOf, List.map_map]
      rw [show ((q0 :: rest).map
            ((fun w => findVal w "cosine/update_grad/layer1") ∘
              (pre_reduce_metrics ∘ fun q => shardMetrics q.1 q.2))) =
          (q0 :: rest).map (fun q => dot q.1 q.2) from
          List.map_congr_left (fun q _ => pre_shard_cos q.1 q.2),
        show ((q0 :: rest).map
            ((fun w => findVal w (cosKeyA "cosine/update_grad/layer1")) ∘
              (pre_reduce_metrics ∘ fun q => shardMetrics q.1 q.2))) =
          (q0 :: rest).map (fun q => sumSq q.1) from
          List.map_congr_left (fun q _ => pre_shard_normU q.1 q.2),
        show ((q0 :: rest).map
            ((fun w => findVal w (cosKeyB "cosine/update_grad/layer1")) ∘
              (pre_reduce_metrics ∘ fun q => shardMetrics q.1 q.2))) =
          (q0 :: rest).map (fun q => sumSq q.2) from
          List.map_congr_left (fun q _ => pre_shard_normG q.1 q.2),
        ← dot_flatten _ hlen, cosine_sim, l2norm, l2norm,
        show ((q0 :: rest).map (fun q => sumSq q.1)).sum =
            sumSq ((q0 :: rest).map Prod.fst).flatten by
          rw [sumSq_flatten, List.map_map]; rfl,
        show ((q0 :: rest).map (fun q => sumSq q.2)).sum =
            sumSq ((q0 :: rest).map Prod.snd).flatten by
          rw [sumSq_flatten, List.map_map]; rfl]
    · cases rest with
      | cons a t => exact absurd (by simp) hn
      | nil =>
        simp only [if_neg hn]
        rw [show cosKeyA "cosine/update_grad/layer1" = "l2_norm/update/layer1" from rfl,
          show cosKeyB "cosine/update_grad/layer1" = "l2_norm/grad/layer1" from rfl,
          pre_shard_cos, pre_shard_normU, pre_shard_normG, cosine_sim, l2norm, l2norm]
        rw [show ([q0].map Prod.fst).flatten = q0.1 ++ [] from rfl,
          show ([q0].map Prod.snd).flatten = q0.2 ++ [] from rfl,
          List.append_nil, List.append_nil]

/-- Witness for C1: a concrete three-key mapping (cosine value `7`, squared
local norms recovered from norm entries `2` and `3` giving `7·2·3 = 42`), and
two workers each holding shards `[1]`,`[1]` of the global pair `[1,1]`,`[1,1]`. -/
theorem cosine_reduction_exact_witness :
    findVal (pre_reduce_metrics
        [("l2_norm/update/layer1", (2 : ℝ)), ("l2_norm/grad/layer1", (3 : ℝ)),
         ("cosine/update_grad/layer1", (7 : ℝ))]) "cosine/update_grad/layer1" = 42 ∧
    findVal
        (runProtocol (([(([1], [1]) : List ℝ × List ℝ), ([1], [1])]).map
          (fun q => shardMetrics q.1 q.2)))
        "cosine/update_grad/layer1" = cosine_sim [1, 1] [1, 1] := by
  constructor
  · have h := cosine_reduction_exact.1
      [("l2_norm/update/layer1", (2 : ℝ)), ("l2_norm/grad/layer1", (3 : ℝ)),
       ("cosine/update_grad/layer1", (7 : ℝ))] "cosine/update_grad/layer1"
      (by decide) (by decide) (by decide) (by decide)
      ⟨["l2_norm/update/layer1", "l2_norm/grad/layer1"], [], by decide, by decide, by decide⟩
    rw [h,
      show findVal
        [("l2_norm/update/layer1", (2 : ℝ)), ("l2_norm/grad/layer1", (3 : ℝ)),
         ("cosine/update_grad/layer1", (7 : ℝ))] "cosine/update_grad/layer1" = 7 from rfl,
      show findVal
        [("l2_norm/update/layer1", (2 : ℝ)), ("l2_norm/grad/layer1", (3 : ℝ)),
         ("cosine/update_grad/layer1", (7 : ℝ))] (cosKeyA "cosine/update_grad/layer1") = 2
        from rfl,
      show findVal
        [("l2_norm/update/layer1", (2 : ℝ)), ("l2_norm/grad/layer1", (3 : ℝ)),
         ("cosine/update_grad/layer1", (7 : ℝ))] (cosKeyB "cosine/update_grad/layer1") = 3
        from rfl,
      Real.sqrt_sq (by norm_num : (0 : ℝ) ≤ 2), Real.sqrt_sq (by norm_num : (0 : ℝ) ≤ 3)]
    norm_num
  · have h := cosine_reduction_exact.2 ([1], [1]) [([1], [1])] ?_
    · exact h
    · intro q hq
      rcases List.mem_cons.mp hq with rfl | hq2
      · rfl
      · rcases List.mem_cons.mp hq2 with rfl | hq3
        · rfl
        · exact absurd hq3 (List.not_mem_nil _)

/-- The value of a cosine key that sits FIRST in the dictionary: the
post-reduce pass then divides by whatever the (not yet square-rooted) norm
entries currently hold. -/
theorem dist_reduce_val_cos_first (n : ℕ) (g : String → ℝ) {m : Metrics} {k : String}
    {K : List String} (hsplit : keysOf m = k :: K) (hk : k ∉ K)
    (hcos : pyStartsWith k "cosine" = true) :
    findVal (dist_reduce_metrics n g m) k =
      (if 1 < n then g k else findVal m k) /
        (findVal m (cosKeyA k) * findVal m (cosKeyB k)) := by
  have hn1 : ¬ (pyStartsWith k "l2_norm" = true) := by
    rw [pyStartsWith_l2_of_cosine hcos]; exact Bool.false_ne_true
  rw [dist_reduce_metrics, hsplit,
    show k :: K = [] ++ k :: K from rfl,
    foldl_split_val _ (findVal_distReduceStep_ne n g) _ _ _ hk, distReduceStep]
  simp only [if_neg hn1, if_pos hcos]
  rw [findVal_setM_self]
  rfl

/-- The metrics of the same shard pair, but with the cosine entry inserted
BEFORE its two referenced norm entries. -/
noncomputable def badShardMetrics (a b : List ℝ) : Metrics :=
  [("cosine/update_grad/layer1", cosine_sim a b),
   ("l2_norm/update/layer1", l2norm a), ("l2_norm/grad/layer1", l2norm b)]

theorem badShardMetrics_keys (a b : List ℝ) :
    keysOf (badShardMetrics a b) =
      ["cosine/update_grad/layer1", "l2_norm/update/layer1", "l2_norm/grad/layer1"] := rfl

theorem pre_bad_normU (a b : List ℝ) :
    findVal (pre_reduce_metrics (badShardMetrics a b)) "l2_norm/update/layer1" = sumSq a := by
  rw [pre_reduce_val_l2 (m := badShardMetrics a b) (by rw [badShardMetrics_keys]; decide)
      (by rw [badShardMetrics_keys]; decide) (by decide),
    show findVal (badShardMetrics a b) "l2_norm/update/layer1" = l2norm a from rfl, l2norm_sq]

theorem pre_bad_normG (a b : List ℝ) :
    findVal (pre_reduce_metrics (badShardMetrics a b)) "l2_norm/grad/layer1" = sumSq b := by
  rw [pre_reduce_val_l2 (m := badShardMetrics a b) (by rw [badShardMetrics_keys]; decide)
      (by rw [badShardMetrics_keys]; decide) (by decide),
    show findVal (badShardMetrics a b) "l2_norm/grad/layer1" = l2norm b from rfl, l2norm_sq]

theorem pre_bad_cos (a b : List ℝ) :
    findVal (pre_reduce_metrics (badShardMetrics a b)) "cosine/update_grad/layer1" =
      dot a b := by
  rw [pre_reduce_val_cos (m := badShardMetrics a b) (k := "cosine/update_grad/layer1")
      (by rw [badShardMetrics_keys]; decide) (by decide) (by decide) (by decide)
      ⟨["l2_norm/update/layer1", "l2_norm/grad/layer1"], [],
        by rw [show sortedKeys (keysOf (badShardMetrics a b)) =
            sortedKeys ["cosine/update_grad/layer1", "l2_norm/update/layer1",
              "l2_norm/grad/layer1"] from rfl]; decide,
        by decide, by decide⟩,
    show findVal (badShardMetrics a b) "cosine/update_grad/layer1" = cosine_sim a b from rfl,
    show findVal (badShardMetrics a b) (cosKeyA "cosine/update_grad/layer1") = l2norm a
      from rfl,
    show findVal (badShardMetrics a b) (cosKeyB "cosine/update_grad/layer1") = l2norm b
      from rfl,
    sqrt_l2norm_sq, sqrt_l2norm_sq, cosine_mul_norms]

/-- Counterexample to C1 as stated: the claim quantifies over every metrics
mapping containing the three keys, but when the cosine entry precedes its
referenced norm entries in the dictionary order, the post-reduce pass divides
by the still-squared (not yet square-rooted) norm entries. Two workers each
holding shards `[1]`,`[1]` of the global vectors `[1,1]`,`[1,1]` then obtain
`2` where the true global cosine similarity is `1`. -/
theorem cosine_reduction_counterexample :
    findVal (runProtocol [badShardMetrics [1] [1], badShardMetrics [1] [1]])
        "cosine/update_grad/layer1" ≠ cosine_sim [1, 1] [1, 1] := by
  have hdot : dot [(1 : ℝ)] [(1 : ℝ)] = 1 := by norm_num [dot]
  have hsq : sumSq [(1 : ℝ)] = 1 := by norm_num [sumSq]
  have hL : findVal (runProtocol [badShardMetrics [1] [1], badShardMetrics [1] [1]])
      "cosine/update_grad/layer1" = 2 := by
    rw [runProtocol,
      show [badShardMetrics [(1 : ℝ)] [1], badShardMetrics [1] [1]].headD [] =
        badShardMetrics [1] [1] from rfl,
      dist_reduce_val_cos_first _ _
        (m := pre_reduce_metrics (badShardMetrics [1] [1]))
        (K := ["l2_norm/update/layer1", "l2_norm/grad/layer1"])
        (by rw [keysOf_pre_reduce]; rfl) (by decide) (by decide),
      if_pos (by norm_num : 1 < [badShardMetrics [(1 : ℝ)] [1], badShardMetrics [1] [1]].length),
      show cosKeyA "cosine/update_grad/layer1" = "l2_norm/update/layer1" from rfl,
      show cosKeyB "cosine/update_grad/layer1" = "l2_norm/grad/layer1" from rfl,
      pre_bad_normU, pre_bad_normG, hsq]
    rw [show gsumOf ([badShardMetrics [(1 : ℝ)] [1], badShardMetrics [1] [1]].map
          pre_reduce_metrics) "cosine/update_grad/layer1" =
        findVal (pre_reduce_metrics (badShardMetrics [1] [1])) "cosine/update_grad/layer1" +
          (findVal (pre_reduce_metrics (badShardMetrics [1] [1]))
            "cosine/update_grad/layer1" + 0) from rfl,
      pre_bad_cos, hdot]
    norm_num
  have hR : cosine_sim [(1 : ℝ), 1] [(1 : ℝ), 1] = 1 := by
    rw [cosine_sim, show dot [(1 : ℝ), 1] [(1 : ℝ), 1] = 2 by norm_num [dot],
      show l2norm [(1 : ℝ), 1] = Real.sqrt 2 by norm_num [l2norm, sumSq],
      Real.mul_self_sqrt (by norm_num)]
    norm_num
  rw [hL, hR]
  norm_num

/-! ## Claim C7: the single-worker protocol is the identity -/

/-- Claim C7 (amended). When the worker count is one, applying the post-reduce
pass after the pre-reduce pass is the identity on the metrics mapping — every
`l2_norm` entry (non-negative) is squared then square-rooted back, every
cosine entry whose referenced norm entries are nonzero (and, as the metric
catalogue guarantees, appear BEFORE it in the dictionary order) is multiplied
and then divided by the same product of norms, and every other entry is
divided by a worker count of one — with no collective call made (the result
does not depend on the all-reduce oracle `g`). -/
theorem single_worker_identity (m : Metrics) (g : String → ℝ)
    (hnd : (keysOf m).Nodup)
    (hl2 : ∀ k ∈ keysOf m, pyStartsWith k "l2_norm" = true → 0 ≤ findVal m k)
    (hcos : ∀ k ∈ keysOf m, pyStartsWith k "cosine" = true →
      ∃ K1 K2, keysOf m = K1 ++ k :: K2 ∧ cosKeyA k ∈ K1 ∧ cosKeyB k ∈ K1 ∧
        pyStartsWith (cosKeyA k) "l2_norm" = true ∧
        pyStartsWith (cosKeyB k) "l2_norm" = true ∧
        findVal m (cosKeyA k) ≠ 0 ∧ findVal m (cosKeyB k) ≠ 0) :
    dist_reduce_metrics 1 g (pre_reduce_metrics m) = m := by
  have hkeys : keysOf (dist_reduce_metrics 1 g (pre_reduce_metrics m)) = keysOf m := by
    rw [keysOf_dist_reduce, keysOf_pre_reduce]
  refine metrics_ext hkeys (by rw [hkeys]; exact hnd) ?_
  intro k hk
  rw [hkeys] at hk
  by_cases h1 : pyStartsWith k "l2_norm" = true
  · rw [dist_reduce_val_l2 1 g (by rw [keysOf_pre_reduce]; exact hnd)
      (by rw [keysOf_pre_reduce]; exact hk) h1,
      if_neg (show ¬ (1 : ℕ) < 1 by norm_num), pre_reduce_val_l2 hnd hk h1,
      Real.sqrt_sq (hl2 k hk h1)]
  · by_cases h2 : pyStartsWith k "cosine" = true
    · obtain ⟨K1, K2, hsplit, hka1, hkb1, hkal2, hkbl2, ha0, hb0⟩ := hcos k hk h2
      have hkaK : cosKeyA k ∈ keysOf m := hsplit ▸ List.mem_append_left _ hka1
      have hkbK : cosKeyB k ∈ keysOf m := hsplit ▸ List.mem_append_left _ hkb1
      rw [dist_reduce_val_cos 1 g (m := pre_reduce_metrics m)
          (by rw [keysOf_pre_reduce]; exact hnd) h2 hkal2 hkbl2
          ⟨K1, K2, by rw [keysOf_pre_reduce]; exact hsplit, hka1, hkb1⟩]
      simp only [if_neg (show ¬ (1 : ℕ) < 1 by norm_num)]
      rw [pre_reduce_val_l2 hnd hkaK hkal2, pre_reduce_val_l2 hnd hkbK hkbl2,
        pre_reduce_val_cos hnd h2 hkal2 hkbl2
          (hsplit ▸ sortedKeys_split_of_split hka1 hkb1 hkal2 hkbl2),
        Real.sqrt_sq (hl2 _ hkaK hkal2), Real.sqrt_sq (hl2 _ hkbK hkbl2)]
      exact mul_div_cancel_right₀ _ (mul_ne_zero ha0 hb0)
    · have h1f : pyStartsWith k "l2_norm" = false := by simpa using h1
      have h2f : pyStartsWith k "cosine" = false := by simpa using h2
      rw [dist_reduce_val_other 1 g (by rw [keysOf_pre_reduce]; exact hnd)
          (by rw [keysOf_pre_reduce]; exact hk) h1f h2f,
        if_neg (show ¬ (1 : ℕ) < 1 by norm_num), pre_reduce_val_other hnd hk h1f h2f,
        Nat.cast_one, div_one]

/-- Witness for C7: a four-key mapping with the norm entries first, a cosine
entry referencing them, and a plain scalar entry; the two passes at worker
count one restore it exactly. -/
theorem single_worker_identity_witness :
    dist_reduce_metrics 1 (fun _ => 0)
        (pre_reduce_metrics
          [("l2_norm/update/layer1", (2 : ℝ)), ("l2_norm/grad/layer1", (3 : ℝ)),
           ("cosine/update_grad/layer1", (7 : ℝ)), ("lr", (5 : ℝ))]) =
      [("l2_norm/update/layer1", (2 : ℝ)), ("l2_norm/grad/layer1", (3 : ℝ)),
       ("cosine/update_grad/layer1", (7 : ℝ)), ("lr", (5 : ℝ))] := by
  refine single_worker_identity _ _ (by decide) ?_ ?_
  · intro k hk h
    have hk' : k ∈ ["l2_norm/update/layer1", "l2_norm/grad/layer1",
        "cosine/update_grad/layer1", "lr"] := hk
    rcases List.mem_cons.mp hk' with rfl | hk1
    · rw [show findVal
          [("l2_norm/update/layer1", (2 : ℝ)), ("l2_norm/grad/layer1", (3 : ℝ)),
           ("cosine/update_grad/layer1", (7 : ℝ)), ("lr", (5 : ℝ))]
          "l2_norm/update/layer1" = 2 from rfl]
      norm_num
    rcases List.mem_cons.mp hk1 with rfl | hk2
    · rw [show findVal
          [("l2_norm/update/layer1", (2 : ℝ)), ("l2_norm/grad/layer1", (3 : ℝ)),
           ("cosine/update_grad/layer1", (7 : ℝ)), ("lr", (5 : ℝ))]
          "l2_norm/grad/layer1" = 3 from rfl]
      norm_num
    rcases List.mem_cons.mp hk2 with rfl | hk3
    · exact absurd h (by decide)
    rcases List.mem_cons.mp hk3 with rfl | hk4
    · exact absurd h (by decide)
    · exact absurd hk4 (List.not_mem_nil _)
  · intro k hk h
    have hk' : k ∈ ["l2_norm/update/layer1", "l2_norm/grad/layer1",
        "cosine/update_grad/layer1", "lr"] := hk
    rcases List.mem_cons.mp hk' with rfl | hk1
    · exact absurd h (by decide)
    rcases List.mem_cons.mp hk1 with rfl | hk2
    · exact absurd h (by decide)
    rcases List.mem_cons.mp hk2 with rfl | hk3
    · refine ⟨["l2_norm/update/layer1", "l2_norm/grad/layer1"], ["lr"], rfl,
        by decide, by decide, by decide, by decide, ?_, ?_⟩
      · rw [show findVal
            [("l2_norm/update/layer1", (2 : ℝ)), ("l2_norm/grad/layer1", (3 : ℝ)),
             ("cosine/update_grad/layer1", (7 : ℝ)), ("lr", (5 : ℝ))]
            (cosKeyA "cosine/update_grad/layer1") = 2 from rfl]
        norm_num
      · rw [show findVal
            [("l2_norm/update/layer1", (2 : ℝ)), ("l2_norm/grad/layer1", (3 : ℝ)),
             ("cosine/update_grad/layer1", (7 : ℝ)), ("lr", (5 : ℝ))]
            (cosKeyB "cosine/update_grad/layer1") = 3 from rfl]
        norm_num
    rcases List.mem_cons.mp hk3 with rfl | hk4
    · exact absurd h (by decide)
    · exact absurd hk4 (List.not_mem_nil _)

/-- Counterexample to C7 as stated: a mapping in which the cosine entry
precedes its two referenced norm entries (all values non-negative, both
referenced norms nonzero) is NOT restored by the single-worker round trip:
the cosine value `1` (shards `[2]`,`[2]`) comes back as `1/4`, because the
post-reduce division uses the still-squared norm entries. -/
theorem single_worker_identity_counterexample :
    dist_reduce_metrics 1 (fun _ => 0)
        (pre_reduce_metrics (badShardMetrics [2] [2])) ≠ badShardMetrics [2] [2] := by
  intro h
  have hv := congrArg (fun mm => findVal mm "cosine/update_grad/layer1") h
  simp only at hv
  rw [dist_reduce_val_cos_first 1 (fun _ => 0)
      (m := pre_reduce_metrics (badShardMetrics [2] [2]))
      (K := ["l2_norm/update/layer1", "l2_norm/grad/layer1"])
      (by rw [keysOf_pre_reduce]; rfl) (by decide) (by decide),
    if_neg (show ¬ (1 : ℕ) < 1 by norm_num),
    show cosKeyA "cosine/update_grad/layer1" = "l2_norm/update/layer1" from rfl,
    show cosKeyB "cosine/update_grad/layer1" = "l2_norm/grad/layer1" from rfl,
    pre_bad_cos, pre_bad_normU, pre_bad_normG,
    show findVal (badShardMetrics [(2 : ℝ)] [2]) "cosine/update_grad/layer1" =
      cosine_sim [2] [2] from rfl,
    show dot [(2 : ℝ)] [(2 : ℝ)] = 4 by norm_num [dot],
    show sumSq [(2 : ℝ)] = 4 by norm_num [sumSq]] at hv
  have hcs : cosine_sim [(2 : ℝ)] [(2 : ℝ)] = 1 := by
    rw [cosine_sim, show dot [(2 : ℝ)] [(2 : ℝ)] = 4 by norm_num [dot],
      show l2norm [(2 : ℝ)] = 2 by
        rw [l2norm, show sumSq [(2 : ℝ)] = 2 ^ 2 by norm_num [sumSq],
          Real.sqrt_sq (by norm_num)]]
    norm_num
  rw [hcs] at hv
  norm_num at hv

/-! ## Claims C4 and C10: the per-parameter metric report -/

theorem report_unfold (groups : List AdamGroup) (s : AdamState) (param grad : List ℝ)
    (name : String) (m : Metrics) :
    report_per_parameter_metrics groups (some s) param grad name m =
      setM (setM (setM (setM (setM (setM (setM m
        ("l2_norm/moment" ++ ("/" ++ name)) (l2norm s.exp_avg))
        ("l2_norm/param" ++ ("/" ++ name)) (l2norm param))
        ("l2_norm/second_moment_sqrt" ++ ("/" ++ name)) (Real.sqrt (l2norm s.exp_avg_sq)))
        ("l2_norm/update" ++ ("/" ++ name))
        (l2norm (reportStepTensor (groups.getD 0 default).lr (groups.getD 0 default).eps
          (groups.getD 0 default).weight_decay (groups.getD 0 default).initial_lr
          (groups.getD 0 default).beta1 (groups.getD 0 default).beta2 s param)))
        ("l2_norm/grad" ++ ("/" ++ name)) (l2norm grad))
        ("cosine/update_grad" ++ ("/" ++ name))
        (cosine_sim grad (reportStepTensor (groups.getD 0 default).lr (groups.getD 0 default).eps
          (groups.getD 0 default).weight_decay (groups.getD 0 default).initial_lr
          (groups.getD 0 default).beta1 (groups.getD 0 default).beta2 s param)))
        ("cosine/moment_grad" ++ ("/" ++ name)) (cosine_sim grad s.exp_avg) := by
  simp only [report_per_parameter_metrics, metricFns, List.foldl_cons, List.foldl_nil]

theorem append_ne_append_right {a b : String} (n : String) (h : a.length ≠ b.length) :
    a ++ n ≠ b ++ n := by
  intro e
  apply h
  have hlen := congrArg String.length e
  rw [String.length_append, String.length_append] at hlen
  omega

theorem report_second_moment_val (groups : List AdamGroup) (s : AdamState)
    (param grad : List ℝ) (name : String) (m : Metrics) :
    findVal (report_per_parameter_metrics groups (some s) param grad name m)
        ("l2_norm/second_moment_sqrt" ++ ("/" ++ name)) =
      Real.sqrt (l2norm s.exp_avg_sq) := by
  rw [report_unfold,
    findVal_setM_ne _ _ _ (append_ne_append_right _ (by decide)),
    findVal_setM_ne _ _ _ (append_ne_append_right _ (by decide)),
    findVal_setM_ne _ _ _ (append_ne_append_right _ (by decide)),
    findVal_setM_ne _ _ _ (append_ne_append_right _ (by decide)),
    findVal_setM_self]

/-- Claim C4 (amended). For every parameter with optimizer state, the metric
catalogue entry `l2_norm/second_moment_sqrt` equals the SQUARE ROOT OF the
L2 norm of the second-moment estimate, `sqrt(norm(exp_avg_sq))` (the code
takes the norm first and then the scalar square root, not the norm of the
element-wise square root). -/
theorem second_moment_sqrt_metric (groups : List AdamGroup) (s : AdamState)
    (param grad : List ℝ) (name : String) (m : Metrics) :
    findVal (report_per_parameter_metrics groups (some s) param grad name m)
        ("l2_norm/second_moment_sqrt" ++ ("/" ++ name)) =
      Real.sqrt (l2norm s.exp_avg_sq) :=
  report_second_moment_val groups s param grad name m

/-- Counterexample to C4 as stated: with `exp_avg_sq = [1,1]` the catalogue
entry is `sqrt(norm([1,1])) = sqrt(sqrt 2)`, while the claimed
`norm(sqrt(exp_avg_sq)) = norm([1,1].map sqrt) = sqrt 2`; these differ. -/
theorem second_moment_sqrt_counterexample :
    findVal (report_per_parameter_metrics [default]
        (some (⟨1, [0, 0], [1, 1], none⟩ : AdamState))
        [0, 0] [0, 0] "p" []) ("l2_norm/second_moment_sqrt" ++ ("/" ++ "p")) ≠
      l2norm (([1, 1] : List ℝ).map Real.sqrt) := by
  rw [report_second_moment_val]
  have hl : l2norm [(1 : ℝ), 1] = Real.sqrt 2 := by
    rw [l2norm, show sumSq [(1 : ℝ), 1] = 2 by norm_num [sumSq]]
  have hr : l2norm (([1, 1] : List ℝ).map Real.sqrt) = Real.sqrt 2 := by
    rw [show (([1, 1] : List ℝ).map Real.sqrt) = [Real.sqrt 1, Real.sqrt 1] from rfl, l2norm,
      show sumSq [Real.sqrt 1, Real.sqrt 1] = Real.sqrt 1 ^ 2 + (Real.sqrt 1 ^ 2 + 0) from rfl,
      Real.sq_sqrt (by norm_num : (0 : ℝ) ≤ 1)]
    norm_num
  rw [show ((⟨1, [0, 0], [1, 1], none⟩ : AdamState)).exp_avg_sq = [(1 : ℝ), 1] from rfl,
    hl, hr]
  intro h
  have h2 : Real.sqrt 2 = 2 := by
    have hsq := congrArg (fun x => x ^ 2) h
    simp only at hsq
    rwa [Real.sq_sqrt (Real.sqrt_nonneg 2), Real.sq_sqrt (by norm_num : (0 : ℝ) ≤ 2)] at hsq
  have h4 : (2 : ℝ) = 4 := by
    have hsq := congrArg (fun x => x ^ 2) h2
    simp only at hsq
    rw [Real.sq_sqrt (by norm_num : (0 : ℝ) ≤ 2)] at hsq
    rw [hsq]
    norm_num
  norm_num at h4

/-- Claim C10. `report_per_parameter_metrics` reads its hyperparameters from the
first parameter group only — the result does not depend on the remaining
groups — and when the parameter has no optimizer state the metrics mapping is
returned unchanged. -/
theorem report_reads_first_group_only (g0 : AdamGroup) (gs gs' : List AdamGroup)
    (ps : Option AdamState) (groups : List AdamGroup) (param grad : List ℝ)
    (name : String) (m : Metrics) :
    report_per_parameter_metrics (g0 :: gs) ps param grad name m =
      report_per_parameter_metrics (g0 :: gs') ps param grad name m ∧
    report_per_parameter_metrics groups none param grad name m = m := by
  constructor
  · cases ps <;> rfl
  · rfl

/-! ## Claim C5: the reported step tensor versus the actual update -/

theorem applyDecay_eq_map (wd lr ilr : ℚ) (p : List ℝ) :
    applyDecay wd lr ilr p =
      p.map (fun x => x * ((1 - decayFactor lr ilr * wd : ℚ) : ℝ)) := by
  rw [applyDecay]
  split_ifs with h
  · rfl
  · push_neg at h
    have hc : ((1 - decayFactor lr ilr * wd : ℚ) : ℝ) = 1 := by rw [h]; norm_num
    rw [hc]
    simp

theorem adamw_report_relation (beta1 beta2 lr initial_lr weight_decay eps : ℚ)
    (param grad ea easq maxE : List ℝ) (step : ℕ)
    (hp : param.length = grad.length) (he : ea.length = grad.length)
    (hq : easq.length = grad.length) :
    (adamwSingle beta1 beta2 lr initial_lr weight_decay eps false
        param grad ea easq maxE step).1 =
      List.zipWith
        (fun pv tv =>
          pv - (tv + 2 * ((decayFactor lr initial_lr * weight_decay : ℚ) : ℝ) * pv))
        param
        (reportStepTensor lr eps weight_decay initial_lr beta1 beta2
          ⟨step,
            (adamwSingle beta1 beta2 lr initial_lr weight_decay eps false
              param grad ea easq maxE step).2.1,
            (adamwSingle beta1 beta2 lr initial_lr weight_decay eps false
              param grad ea easq maxE step).2.2.1, none⟩ param) := by
  simp only [adamwSingle, reportStepTensor, applyDecay_eq_map, Bool.false_eq_true, if_false]
  refine List.ext_getElem ?_ ?_
  · simp only [List.length_zipWith, List.length_map, hp, he, hq]
    omega
  · intro i h1 h2
    simp only [List.getElem_zipWith, List.getElem_map]
    push_cast
    ring

/-- Claim C5 (amended). The step tensor derived by
`report_per_parameter_metrics` equals `(lr/bias_correction1)·exp_avg/denom`
MINUS `decay_factor·weight_decay` times the parameter value (the decay term
enters with a negative sign rather than being added); consequently, for the
non-amsgrad update evaluated with the post-update moments at the pre-update
parameter, `parameter_new = parameter_old - (step_tensor +
2·decay_factor·weight_decay·parameter_old)`, and the claimed identity
`parameter_new = parameter_old - step_tensor` holds exactly when
`weight_decay = 0`. -/
theorem report_step_tensor_formula (beta1 beta2 lr initial_lr weight_decay eps : ℚ)
    (s : AdamState) (param grad ea easq maxE : List ℝ) (step : ℕ)
    (hp : param.length = grad.length) (he : ea.length = grad.length)
    (hq : easq.length = grad.length) :
    (reportStepTensor lr eps weight_decay initial_lr beta1 beta2 s param =
      List.zipWith
        (fun ed pv => ed - ((weight_decay * decayFactor lr initial_lr : ℚ) : ℝ) * pv)
        (List.zipWith (fun e d => ((lr / (1 - beta1 ^ s.step) : ℚ) : ℝ) * (e / d)) s.exp_avg
          (s.exp_avg_sq.map
            (fun x => Real.sqrt x / Real.sqrt ((1 - beta2 ^ s.step : ℚ) : ℝ) + ((eps : ℚ) : ℝ))))
        param) ∧
    ((adamwSingle beta1 beta2 lr initial_lr weight_decay eps false
        param grad ea easq maxE step).1 =
      List.zipWith
        (fun pv tv =>
          pv - (tv + 2 * ((decayFactor lr initial_lr * weight_decay : ℚ) : ℝ) * pv))
        param
        (reportStepTensor lr eps weight_decay initial_lr beta1 beta2
          ⟨step,
            (adamwSingle beta1 beta2 lr initial_lr weight_decay eps false
              param grad ea easq maxE step).2.1,
            (adamwSingle beta1 beta2 lr initial_lr weight_decay eps false
              param grad ea easq maxE step).2.2.1, none⟩ param)) ∧
    (weight_decay = 0 →
      (adamwSingle beta1 beta2 lr initial_lr weight_decay eps false
          param grad ea easq maxE step).1 =
        List.zipWith (fun pv tv => pv - tv) param
          (reportStepTensor lr eps weight_decay initial_lr beta1 beta2
            ⟨step,
              (adamwSingle beta1 beta2 lr initial_lr weight_decay eps false
                param grad ea easq maxE step).2.1,
              (adamwSingle beta1 beta2 lr initial_lr weight_decay eps false
                param grad ea easq maxE step).2.2.1, none⟩ param)) := by
  refine ⟨?_, adamw_report_relation beta1 beta2 lr initial_lr weight_decay eps
    param grad ea easq maxE step hp he hq, ?_⟩
  · simp only [reportStepTensor]
    refine List.ext_getElem ?_ ?_
    · simp only [List.length_zipWith, List.length_map]
    · intro i h1 h2
      simp only [List.getElem_zipWith, List.getElem_map]
      push_cast
      ring
  · intro hw
    subst hw
    rw [adamw_report_relation beta1 beta2 lr initial_lr 0 eps
      param grad ea easq maxE step hp he hq]
    refine List.ext_getElem ?_ ?_
    · simp only [List.length_zipWith]
    · intro i h1 h2
      simp only [List.getElem_zipWith]
      push_cast
      ring

/-- Witness for C5: the update/report relation instantiated at a concrete
one-element parameter. -/
theorem report_step_tensor_formula_witness :
    (adamwSingle 0 0 1 1 1 1 false [1] [1] [1] [0] [] 1).1 =
      List.zipWith
        (fun pv tv => pv - (tv + 2 * ((decayFactor 1 1 * 1 : ℚ) : ℝ) * pv)) [1]
        (reportStepTensor 1 1 1 1 0 0
          ⟨1, (adamwSingle 0 0 1 1 1 1 false [1] [1] [1] [0] [] 1).2.1,
            (adamwSingle 0 0 1 1 1 1 false [1] [1] [1] [0] [] 1).2.2.1, none⟩ [1]) :=
  (report_step_tensor_formula 0 0 1 1 1 1 ⟨0, [], [], none⟩ [1] [1] [1] [0] [] 1
    rfl rfl rfl).2.1

/-- Counterexample to C5 as stated: at `lr = initial_lr = weight_decay =
eps = 1`, `beta1 = beta2 = 0`, state `step 1, exp_avg [1], exp_avg_sq [0]`
and parameter `[1]`, the code's step tensor is `[0]`, whereas the claimed
formula `(lr/bc1)·exp_avg/denom PLUS decay_factor·weight_decay·param` gives
`[2]`. -/
theorem report_step_tensor_counterexample :
    reportStepTensor 1 1 1 1 0 0 ⟨1, [1], [0], none⟩ [1] ≠
      List.zipWith
        (fun ed pv => ed + ((1 * decayFactor 1 1 : ℚ) : ℝ) * pv)
        (List.zipWith (fun e d => ((1 / (1 - (0 : ℚ) ^ 1) : ℚ) : ℝ) * (e / d)) [1]
          (([0] : List ℝ).map
            (fun x => Real.sqrt x / Real.sqrt ((1 - (0 : ℚ) ^ 1 : ℚ) : ℝ) + ((1 : ℚ) : ℝ))))
        [1] := by
  have hL : reportStepTensor 1 1 1 1 0 0 ⟨1, [1], [0], none⟩ [1] = [0] := by
    simp only [reportStepTensor, List.map_cons, List.map_nil, List.zipWith_cons_cons,
      List.zipWith_nil_right, Real.sqrt_zero, decayFactor]
    norm_num
  have hR : List.zipWith
      (fun ed pv => ed + ((1 * decayFactor 1 1 : ℚ) : ℝ) * pv)
      (List.zipWith (fun e d => ((1 / (1 - (0 : ℚ) ^ 1) : ℚ) : ℝ) * (e / d)) [1]
        (([0] : List ℝ).map
          (fun x => Real.sqrt x / Real.sqrt ((1 - (0 : ℚ) ^ 1 : ℚ) : ℝ) + ((1 : ℚ) : ℝ))))
      [1] = [2] := by
    simp only [List.map_cons, List.map_nil, List.zipWith_cons_cons, List.zipWith_nil_right,
      Real.sqrt_zero, decayFactor]
    norm_num
  rw [hL, hR]
  intro h
  injection h with h1
  norm_num at h1

/-! ## Claim C6: the decoupled decay scaling in both variants -/

/-- Claim C6. In both update variants, when `weight_decay` is nonzero the
parameter is scaled in place by `(1 - decay_factor·weight_decay)` before the
gradient step and independently of the gradient, where `decay_factor =
lr/initial_lr` with a falsy/zero `initial_lr` short-circuiting to `1.0`; for
`lr = initial_lr` (nonzero) the decay multiplies the parameter by exactly
`(1 - weight_decay)`. -/
theorem decoupled_decay_correct (weight_decay momentum lr initial_lr dampening : ℚ)
    (nesterov : Bool) (beta1 beta2 eps : ℚ) (amsgrad : Bool)
    (param d_p grad ea easq maxE : List ℝ) (buf : Option (List ℝ)) (step : ℕ) :
    (weight_decay ≠ 0 → applyDecay weight_decay lr initial_lr param =
      param.map (fun x =>
        x * ((1 - (if initial_lr ≠ 0 then lr / initial_lr else 1) * weight_decay : ℚ) : ℝ))) ∧
    ((sgdwSingle weight_decay momentum lr initial_lr dampening nesterov param d_p buf).1 =
      List.zipWith (fun pv dv => pv + (-(lr : ℝ)) * dv)
        (applyDecay weight_decay lr initial_lr param)
        (sgdDirBuf momentum dampening nesterov d_p buf).1) ∧
    ((adamwSingle beta1 beta2 lr initial_lr weight_decay eps amsgrad
        param grad ea easq maxE step).1 =
      List.zipWith (fun pv qv => pv + (-((lr / (1 - beta1 ^ step) : ℚ) : ℝ)) * qv)
        (applyDecay weight_decay lr initial_lr param)
        (List.zipWith (fun a b => a / b)
          (adamwSingle beta1 beta2 lr initial_lr weight_decay eps amsgrad
            param grad ea easq maxE step).2.1
          ((if amsgrad = true then
              (adamwSingle beta1 beta2 lr initial_lr weight_decay eps amsgrad
                param grad ea easq maxE step).2.2.2
            else
              (adamwSingle beta1 beta2 lr initial_lr weight_decay eps amsgrad
                param grad ea easq maxE step).2.2.1).map
            (fun x => Real.sqrt x / Real.sqrt ((1 - beta2 ^ step : ℚ) : ℝ) + ((eps : ℚ) : ℝ))))) ∧
    (lr = initial_lr → initial_lr ≠ 0 → weight_decay ≠ 0 →
      applyDecay weight_decay lr initial_lr param =
        param.map (fun x => x * ((1 - weight_decay : ℚ) : ℝ))) := by
  refine ⟨?_, rfl, ?_, ?_⟩
  · intro h
    rw [applyDecay, if_pos h, decayFactor]
  · cases amsgrad <;> rfl
  · intro hlr hilr hwd
    rw [applyDecay, if_pos hwd, decayFactor, if_pos hilr, hlr, div_self hilr, one_mul]

/-- Witness for C6: `lr = initial_lr = 2`, `weight_decay = 1/2` scales the
parameter `[6]` to `[3]`, i.e. multiplies by exactly `1 - weight_decay`. -/
theorem decoupled_decay_correct_witness :
    applyDecay (1 / 2 : ℚ) 2 2 [(6 : ℝ)] = [(3 : ℝ)] := by
  have h := (decoupled_decay_correct (1 / 2) 0 2 2 0 false 0 0 0 false
    [(6 : ℝ)] [] [] [] [] [] none 0).2.2.2 rfl (by norm_num) (by norm_num)
  rw [h]
  norm_num

/-! ## List-store helper lemmas -/

theorem getD_set_ne {α : Type _} (l : List α) {i j : ℕ} (h : i ≠ j) (a d : α) :
    (l.set i a).getD j d = l.getD j d := by
  rw [List.getD_eq_getElem?_getD, List.getD_eq_getElem?_getD, List.getElem?_set_ne h]

theorem getD_set_cases {α : Type _} (l : List α) (i : ℕ) (a d : α) :
    (l.set i a).getD i d = a ∨ (l.set i a).getD i d = l.getD i d := by
  by_cases h : i < l.length
  · left
    rw [List.getD_eq_getElem?_getD, List.getElem?_set_self h]
    rfl
  · right
    rw [List.set_eq_of_length_le (by omega)]

/-! ## Claims C8/C9: the SGD step orchestration -/

theorem sgdWriteBack_not_mem (i : ℕ) (idxs : List ℕ) :
    ∀ (ds : List (List ℝ)) (bs : List (Option (List ℝ))) (ps : List SParam) (st : SGDStore),
      i ∉ idxs →
      (sgdWriteBack ps st idxs ds bs).1.getD i default = ps.getD i default ∧
      (sgdWriteBack ps st idxs ds bs).2.getD i none = st.getD i none := by
  induction idxs with
  | nil => intro ds bs ps st _; cases ds <;> cases bs <;> exact ⟨rfl, rfl⟩
  | cons j js ih =>
    intro ds bs ps st hmem
    cases ds with
    | nil => exact ⟨rfl, rfl⟩
    | cons d ds' =>
      cases bs with
      | nil => exact ⟨rfl, rfl⟩
      | cons b bs' =>
        have hij : j ≠ i := fun e => hmem (e ▸ List.mem_cons_self _ _)
        have hmem' : i ∉ js := fun e => hmem (List.mem_cons_of_mem _ e)
        rw [sgdWriteBack]
        obtain ⟨h1, h2⟩ := ih ds' bs' (ps.set j ⟨d, (ps.getD j default).grad⟩)
          (st.set j (some b)) hmem'
        exact ⟨by rw [h1, getD_set_ne _ hij], by rw [h2, getD_set_ne _ hij]⟩

theorem sgdStepGroup_skip (ps : List SParam) (st : SGDStore) (g : SGDGroup) (i : ℕ)
    (h : (ps.getD i default).grad = none) :
    (sgdStepGroup ps st g).1.getD i default = ps.getD i default ∧
    (sgdStepGroup ps st g).2.getD i none = st.getD i none := by
  have hnm : i ∉ g.params.filter (fun j => ((ps.getD j default).grad).isSome) := by
    intro hmem
    have h2 := (List.mem_filter.mp hmem).2
    rw [h] at h2
    exact absurd h2 (by decide)
  exact sgdWriteBack_not_mem i _ _ _ ps st hnm

theorem sgdFold_skip (i : ℕ) (gs : List SGDGroup) :
    ∀ (ps : List SParam) (st : SGDStore), (ps.getD i default).grad = none →
      (gs.foldl (fun a g => sgdStepGroup a.1 a.2 g) (ps, st)).1.getD i default =
        ps.getD i default ∧
      (gs.foldl (fun a g => sgdStepGroup a.1 a.2 g) (ps, st)).2.getD i none =
        st.getD i none := by
  induction gs with
  | nil => intro ps st _; exact ⟨rfl, rfl⟩
  | cons g gs' ih =>
    intro ps st h
    obtain ⟨h1, h2⟩ := sgdStepGroup_skip ps st g i h
    have h' : ((sgdStepGroup ps st g).1.getD i default).grad = none := by rw [h1, h]
    obtain ⟨h3, h4⟩ := ih (sgdStepGroup ps st g).1 (sgdStepGroup ps st g).2 h'
    rw [List.foldl_cons]
    exact ⟨by rw [h3, h1], by rw [h4, h2]⟩

theorem sgdDirBuf_momentum_zero (dampening : ℚ) (nesterov : Bool) (d : List ℝ)
    (b : Option (List ℝ)) : sgdDirBuf 0 dampening nesterov d b = (d, b) := by
  rw [sgdDirBuf.eq_def, if_neg (by norm_num)]

theorem sgdw_cons (wd mom lr ilr damp : ℚ) (nest : Bool) (p d : List ℝ)
    (ps ds : List (List ℝ)) (b0 : Option (List ℝ)) (bs : List (Option (List ℝ))) :
    sgdw wd mom lr ilr damp nest (p :: ps) (d :: ds) (b0 :: bs) =
      ((sgdwSingle wd mom lr ilr damp nest p d b0).1 ::
          (sgdw wd mom lr ilr damp nest ps ds bs).1,
        (sgdwSingle wd mom lr ilr damp nest p d b0).2 ::
          (sgdw wd mom lr ilr damp nest ps ds bs).2) := rfl

theorem sgdw_bufs_none (wd lr ilr damp : ℚ) (nest : Bool) (ps : List (List ℝ)) :
    ∀ (ds : List (List ℝ)) (bs : List (Option (List ℝ))),
      (∀ b ∈ bs, b = none) →
      ∀ b ∈ (sgdw wd 0 lr ilr damp nest ps ds bs).2, b = none := by
  induction ps with
  | nil =>
    intro ds bs _ b hb
    cases ds <;> cases bs <;> exact absurd hb (List.not_mem_nil _)
  | cons p ps' ih =>
    intro ds bs h b hb
    cases ds with
    | nil => exact absurd hb (List.not_mem_nil _)
    | cons d ds' =>
      cases bs with
      | nil => exact absurd hb (List.not_mem_nil _)
      | cons bb bs' =>
        rw [sgdw_cons] at hb
        rcases List.mem_cons.mp hb with h1 | hb2
        · have hs : (sgdwSingle wd 0 lr ilr damp nest p d bb).2 = bb := by
            rw [sgdwSingle, sgdDirBuf_momentum_zero]
          rw [h1, hs]
          exact h bb (List.mem_cons_self _ _)
        · exact ih ds' bs' (fun x hx => h x (List.mem_cons_of_mem _ hx)) b hb2

theorem sgdWriteBack_state_none (idxs : List ℕ) :
    ∀ (ds : List (List ℝ)) (bs : List (Option (List ℝ))) (ps : List SParam) (st : SGDStore),
      (∀ j, (st.getD j none).bind id = none) → (∀ b ∈ bs, b = none) →
      ∀ j, ((sgdWriteBack ps st idxs ds bs).2.getD j none).bind id = none := by
  induction idxs with
  | nil => intro ds bs ps st h1 _ j; cases ds <;> cases bs <;> exact h1 j
  | cons i is ih =>
    intro ds bs ps st h1 h2 j
    cases ds with
    | nil => exact h1 j
    | cons d ds' =>
      cases bs with
      | nil => exact h1 j
      | cons b bs' =>
        have hb : b = none := h2 b (List.mem_cons_self _ _)
        subst hb
        rw [sgdWriteBack]
        refine ih ds' bs' _ _ ?_ (fun x hx => h2 x (List.mem_cons_of_mem _ hx)) j
        intro j'
        by_cases hj : i = j'
        · subst hj
          rcases getD_set_cases st i (some none) none with h | h
          · rw [h]; rfl
          · rw [h]; exact h1 i
        · rw [getD_set_ne _ hj]
          exact h1 j'

theorem sgdStepGroup_state_none (ps : List SParam) (st : SGDStore) (g : SGDGroup)
    (hmom : g.momentum = 0) (hst : ∀ j, (st.getD j none).bind id = none) :
    ∀ j, ((sgdStepGroup ps st g).2.getD j none).bind id = none := by
  intro j
  have hbufs : ∀ b ∈ (g.params.filter
      (fun i => ((ps.getD i default).grad).isSome)).map
        (fun i => (st.getD i none).bind id), b = none := by
    intro b hb
    obtain ⟨i, _, rfl⟩ := List.mem_map.mp hb
    exact hst i
  refine sgdWriteBack_state_none _ _ _ ps st hst ?_ j
  rw [show g.momentum = 0 from hmom] at *
  exact sgdw_bufs_none _ _ _ _ _ _ _ _ hbufs

/-- Claim C9 (amended). For the momentum-SGD variant, no `momentum_buffer`
TENSOR appears while `momentum == 0`: if every parameter's state holds no
buffer tensor (either no `momentum_buffer` entry at all, or an entry holding
Python `None` — which is what a step with zero momentum writes), a further
step with zero momentum in every group preserves that. A buffer tensor is
created only by the first update with nonzero momentum. -/
theorem momentum_buffer_none_preserved (w : SGDWorld)
    (hmom : ∀ g ∈ w.groups, g.momentum = 0)
    (hst : ∀ i, (w.state.getD i none).bind id = none) :
    ∀ i, ((sgdStep w).state.getD i none).bind id = none := by
  rw [sgdStep]
  have hgen : ∀ (gs : List SGDGroup), (∀ g ∈ gs, g.momentum = 0) →
      ∀ (ps : List SParam) (st : SGDStore), (∀ j, (st.getD j none).bind id = none) →
      ∀ j, ((gs.foldl (fun a g => sgdStepGroup a.1 a.2 g) (ps, st)).2.getD j none).bind id =
        none := by
    intro gs
    induction gs with
    | nil => intro _ ps st h j; exact h j
    | cons g gs' ih =>
      intro hm ps st h j
      rw [List.foldl_cons]
      exact ih (fun g' hg' => hm g' (List.mem_cons_of_mem _ hg')) _ _
        (sgdStepGroup_state_none ps st g (hm g (List.mem_cons_self _ _)) h) j
  exact hgen w.groups hmom w.params w.state hst

/-- Witness for C9 (amended): one parameter with a gradient, momentum zero;
after the step its state holds no buffer tensor. -/
theorem momentum_buffer_none_preserved_witness :
    (((sgdStep ⟨[⟨[1], some [1]⟩], [none], [⟨[0], 0, 0, 1, 1, 0, false⟩]⟩).state.getD 0
      none).bind id) = none := by
  refine momentum_buffer_none_preserved _ ?_ ?_ 0
  · intro g hg
    rcases List.mem_cons.mp hg with rfl | hg2
    · rfl
    · exact absurd hg2 (List.not_mem_nil _)
  · intro i
    match i with
    | 0 => rfl
    | n + 1 => rfl

/-- Counterexample to C9 as stated: after a single step with `momentum == 0`,
the stepped parameter's state DOES hold a `momentum_buffer` entry (with value
Python `None`): the write-back `state['momentum_buffer'] = momentum_buffer`
runs unconditionally for every parameter with a gradient. -/
theorem momentum_buffer_entry_counterexample :
    (sgdStep ⟨[⟨[1], some [1]⟩], [none], [⟨[0], 0, 0, 1, 1, 0, false⟩]⟩).state.getD 0 none ≠
      none := by
  intro h
  rw [show (sgdStep ⟨[⟨[1], some [1]⟩], [none],
    [⟨[0], 0, 0, 1, 1, 0, false⟩]⟩).state.getD 0 none = some none from rfl] at h
  exact Option.some_ne_none _ h

/-! ## The Adam step orchestration: collection-phase lemmas

Each loop iteration of the collection phase either skips the parameter
(no gradient, or not trainable), raises on a sparse gradient, or initializes
and advances the parameter's state and collects it. -/

theorem collectGroup_nil (ams : Bool) (ps : List AParam) (st : AdamStore) :
    collectGroup ams ps st [] = (st, [], true) := rfl

theorem collectGroup_cons_skip (ams : Bool) (ps : List AParam) (st : AdamStore) (j : ℕ)
    (rest : List ℕ)
    (h : (ps.getD j default).grad = none ∨ (ps.getD j default).requires_grad = false) :
    collectGroup ams ps st (j :: rest) = collectGroup ams ps st rest := by
  rw [collectGroup]
  cases hg : (ps.getD j default).grad with
  | none => simp only
  | some gr =>
    simp only
    rcases h with h | h
    · rw [hg] at h; exact absurd h (Option.noConfusion)
    · rw [if_neg (by rw [h]; exact Bool.false_ne_true)]

theorem collectGroup_cons_sparse (ams : Bool) (ps : List AParam) (st : AdamStore) (j : ℕ)
    (rest : List ℕ) (gr : PGrad) (hg : (ps.getD j default).grad = some gr)
    (hsp : gr.isSparse = true) (hrg : (ps.getD j default).requires_grad = true) :
    collectGroup ams ps st (j :: rest) = (st, [], false) := by
  rw [collectGroup]
  simp only [hg]
  rw [if_pos hrg, if_pos hsp]

theorem collectGroup_cons_proceed (ams : Bool) (ps : List AParam) (st : AdamStore) (j : ℕ)
    (rest : List ℕ) (gr : PGrad) (hg : (ps.getD j default).grad = some gr)
    (hsp : gr.isSparse = false) (hrg : (ps.getD j default).requires_grad = true) :
    collectGroup ams ps st (j :: rest) =
      ((collectGroup ams ps
          (st.set j (some (adamStateNext ams (ps.getD j default) (st.getD j none)))) rest).1,
        j :: (collectGroup ams ps
          (st.set j (some (adamStateNext ams (ps.getD j default) (st.getD j none)))) rest).2.1,
        (collectGroup ams ps
          (st.set j (some (adamStateNext ams (ps.getD j default) (st.getD j none)))) rest).2.2)
    := by
  rw [collectGroup]
  simp only [hg]
  rw [if_pos hrg, if_neg (by rw [hsp]; exact Bool.false_ne_true)]

theorem collectGroup_skip (ams : Bool) (ps : List AParam) (i : ℕ)
    (hi : (ps.getD i default).grad = none ∨ (ps.getD i default).requires_grad = false) :
    ∀ (L : List ℕ) (st : AdamStore),
      (collectGroup ams ps st L).1.getD i none = st.getD i none ∧
      i ∉ (collectGroup ams ps st L).2.1 := by
  intro L
  induction L with
  | nil => intro st; exact ⟨rfl, List.not_mem_nil _⟩
  | cons j rest ih =>
    intro st
    by_cases hskip : (ps.getD j default).grad = none ∨
        (ps.getD j default).requires_grad = false
    · rw [collectGroup_cons_skip ams ps st j rest hskip]
      exact ih st
    · push_neg at hskip
      obtain ⟨gr, hg⟩ := Option.ne_none_iff_exists'.mp hskip.1
      have hrg : (ps.getD j default).requires_grad = true := by
        cases hb : (ps.getD j default).requires_grad
        · exact absurd hb hskip.2
        · rfl
      have hji : j ≠ i := by
        rintro rfl
        rcases hi with h | h
        · rw [hg] at h; exact Option.noConfusion h
        · rw [hrg] at h; exact Bool.noConfusion h
      by_cases hsp : gr.isSparse = true
      · rw [collectGroup_cons_sparse ams ps st j rest gr hg hsp hrg]
        exact ⟨rfl, List.not_mem_nil _⟩
      · have hspf : gr.isSparse = false := by simpa using hsp
        rw [collectGroup_cons_proceed ams ps st j rest gr hg hspf hrg]
        refine ⟨?_, ?_⟩
        · rw [(ih _).1, getD_set_ne _ hji]
        · intro hmem
          rcases List.mem_cons.mp hmem with rfl | hm2
          · exact hji rfl
          · exact (ih _).2 hm2

theorem collectGroup_not_mem (ams : Bool) (ps : List AParam) (i : ℕ) :
    ∀ (L : List ℕ) (st : AdamStore), i ∉ L →
      (collectGroup ams ps st L).1.getD i none = st.getD i none := by
  intro L
  induction L with
  | nil => intro st _; rfl
  | cons j rest ih =>
    intro st hmem
    have hji : j ≠ i := fun e => hmem (e ▸ List.mem_cons_self _ _)
    have hmem' : i ∉ rest := fun e => hmem (List.mem_cons_of_mem _ e)
    by_cases hskip : (ps.getD j default).grad = none ∨
        (ps.getD j default).requires_grad = false
    · rw [collectGroup_cons_skip ams ps st j rest hskip]
      exact ih st hmem'
    · push_neg at hskip
      obtain ⟨gr, hg⟩ := Option.ne_none_iff_exists'.mp hskip.1
      have hrg : (ps.getD j default).requires_grad = true := by
        cases hb : (ps.getD j default).requires_grad
        · exact absurd hb hskip.2
        · rfl
      by_cases hsp : gr.isSparse = true
      · rw [collectGroup_cons_sparse ams ps st j rest gr hg hsp hrg]
      · have hspf : gr.isSparse = false := by simpa using hsp
        rw [collectGroup_cons_proceed ams ps st j rest gr hg hspf hrg]
        simp only
        rw [ih _ hmem', getD_set_ne _ hji]

theorem collectGroup_ok (ams : Bool) (ps : List AParam) :
    ∀ (L : List ℕ) (st : AdamStore),
      (∀ j ∈ L, (ps.getD j default).grad = none ∨
        (ps.getD j default).requires_grad = false ∨
        ((ps.getD j default).grad.getD ⟨[], false⟩).isSparse = false) →
      (collectGroup ams ps st L).2.2 = true := by
  intro L
  induction L with
  | nil => intro st _; rfl
  | cons j rest ih =>
    intro st h
    by_cases hskip : (ps.getD j default).grad = none ∨
        (ps.getD j default).requires_grad = false
    · rw [collectGroup_cons_skip ams ps st j rest hskip]
      exact ih st (fun x hx => h x (List.mem_cons_of_mem _ hx))
    · push_neg at hskip
      obtain ⟨gr, hg⟩ := Option.ne_none_iff_exists'.mp hskip.1
      have hrg : (ps.getD j default).requires_grad = true := by
        cases hb : (ps.getD j default).requires_grad
        · exact absurd hb hskip.2
        · rfl
      have hspf : gr.isSparse = false := by
        rcases h j (List.mem_cons_self _ _) with h1 | h1 | h1
        · rw [hg] at h1; exact absurd h1 (Option.noConfusion)
        · rw [hrg] at h1; exact Bool.noConfusion h1
        · rw [hg] at h1; exact h1
      rw [collectGroup_cons_proceed ams ps st j rest gr hg hspf hrg]
      exact ih _ (fun x hx => h x (List.mem_cons_of_mem _ hx))

theorem collectGroup_sparse_abort (ams : Bool) (ps : List AParam) (i : ℕ) (gr : PGrad)
    (hgrad : (ps.getD i default).grad = some gr) (hsp : gr.isSparse = true)
    (hrg : (ps.getD i default).requires_grad = true) :
    ∀ (q1 : List ℕ) (st : AdamStore) (q2 : List ℕ),
      (∀ j ∈ q1, (ps.getD j default).grad = none ∨
        (ps.getD j default).requires_grad = false ∨
        ((ps.getD j default).grad.getD ⟨[], false⟩).isSparse = false) →
      collectGroup ams ps st (q1 ++ i :: q2) =
        ((collectGroup ams ps st q1).1, (collectGroup ams ps st q1).2.1, false) := by
  intro q1
  induction q1 with
  | nil =>
    intro st q2 _
    rw [List.nil_append, collectGroup_cons_sparse ams ps st i q2 gr hgrad hsp hrg,
      collectGroup_nil]
  | cons j rest ih =>
    intro st q2 h
    rw [List.cons_append]
    by_cases hskip : (ps.getD j default).grad = none ∨
        (ps.getD j default).requires_grad = false
    · rw [collectGroup_cons_skip ams ps st j _ hskip, collectGroup_cons_skip ams ps st j _ hskip]
      exact ih st q2 (fun x hx => h x (List.mem_cons_of_mem _ hx))
    · push_neg at hskip
      obtain ⟨gr', hg⟩ := Option.ne_none_iff_exists'.mp hskip.1
      have hrgj : (ps.getD j default).requires_grad = true := by
        cases hb : (ps.getD j default).requires_grad
        · exact absurd hb hskip.2
        · rfl
      have hspj : gr'.isSparse = false := by
        rcases h j (List.mem_cons_self _ _) with h1 | h1 | h1
        · rw [hg] at h1; exact absurd h1 (Option.noConfusion)
        · rw [hrgj] at h1; exact Bool.noConfusion h1
        · rw [hg] at h1; exact h1
      rw [collectGroup_cons_proceed ams ps st j _ gr' hg hspj hrgj,
        collectGroup_cons_proceed ams ps st j rest gr' hg hspj hrgj,
        ih _ q2 (fun x hx => h x (List.mem_cons_of_mem _ hx))]

/-! ## The Adam step orchestration: write-back and group-loop lemmas -/

theorem adamWriteBack_not_mem (ams : Bool) (i : ℕ) (idxs : List ℕ) :
    ∀ (rs : List (List ℝ × List ℝ × List ℝ × List ℝ)) (ps : List AParam) (st : AdamStore),
      i ∉ idxs →
      (adamWriteBack ams ps st idxs rs).1.getD i default = ps.getD i default ∧
      (adamWriteBack ams ps st idxs rs).2.getD i none = st.getD i none := by
  induction idxs with
  | nil => intro rs ps st _; cases rs <;> exact ⟨rfl, rfl⟩
  | cons j js ih =>
    intro rs ps st hmem
    cases rs with
    | nil => exact ⟨rfl, rfl⟩
    | cons r rs' =>
      have hji : j ≠ i := fun e => hmem (e ▸ List.mem_cons_self _ _)
      have hmem' : i ∉ js := fun e => hmem (List.mem_cons_of_mem _ e)
      simp only [adamWriteBack]
      refine ⟨?_, ?_⟩
      · rw [(ih rs' _ _ hmem').1, getD_set_ne _ hji]
      · rw [(ih rs' _ _ hmem').2, getD_set_ne _ hji]

theorem adamWriteBack_grad_inv (ams : Bool) (idxs : List ℕ) :
    ∀ (rs : List (List ℝ × List ℝ × List ℝ × List ℝ)) (ps : List AParam) (st : AdamStore)
      (j : ℕ),
      ((adamWriteBack ams ps st idxs rs).1.getD j default).grad = (ps.getD j default).grad ∧
      ((adamWriteBack ams ps st idxs rs).1.getD j default).requires_grad =
        (ps.getD j default).requires_grad := by
  induction idxs with
  | nil => intro rs ps st j; cases rs <;> exact ⟨rfl, rfl⟩
  | cons k ks ih =>
    intro rs ps st j
    cases rs with
    | nil => exact ⟨rfl, rfl⟩
    | cons r rs' =>
      simp only [adamWriteBack]
      refine ⟨?_, ?_⟩
      · rw [(ih rs' _ _ j).1]
        by_cases hkj : k = j
        · subst hkj
          rcases getD_set_cases ps k
            (⟨r.1, (ps.getD k default).grad, (ps.getD k default).requires_grad⟩ : AParam)
            default with h | h
          · rw [h]
          · rw [h]
        · rw [getD_set_ne _ hkj]
      · rw [(ih rs' _ _ j).2]
        by_cases hkj : k = j
        · subst hkj
          rcases getD_set_cases ps k
            (⟨r.1, (ps.getD k default).grad, (ps.getD k default).requires_grad⟩ : AParam)
            default with h | h
          · rw [h]
          · rw [h]
        · rw [getD_set_ne _ hkj]

theorem adamStepGroup_skip (ps : List AParam) (st : AdamStore) (g : AdamGroup) (i : ℕ)
    (hi : (ps.getD i default).grad = none ∨ (ps.getD i default).requires_grad = false) :
    (adamStepGroup ps st g).1.getD i default = ps.getD i default ∧
    (adamStepGroup ps st g).2.1.getD i none = st.getD i none := by
  obtain ⟨hst, hidx⟩ := collectGroup_skip g.amsgrad ps i hi g.params st
  simp only [adamStepGroup]
  by_cases hok : (collectGroup g.amsgrad ps st g.params).2.2 = true
  · rw [if_pos hok]
    refine ⟨?_, ?_⟩
    · rw [(adamWriteBack_not_mem g.amsgrad i _ _ _ _ hidx).1]
    · rw [(adamWriteBack_not_mem g.amsgrad i _ _ _ _ hidx).2, hst]
  · rw [if_neg hok]
    exact ⟨rfl, hst⟩

theorem adamStepGroup_grad_inv (ps : List AParam) (st : AdamStore) (g : AdamGroup) (j : ℕ) :
    ((adamStepGroup ps st g).1.getD j default).grad = (ps.getD j default).grad ∧
    ((adamStepGroup ps st g).1.getD j default).requires_grad =
      (ps.getD j default).requires_grad := by
  simp only [adamStepGroup]
  by_cases hok : (collectGroup g.amsgrad ps st g.params).2.2 = true
  · rw [if_pos hok]
    exact adamWriteBack_grad_inv g.amsgrad _ _ _ _ j
  · rw [if_neg hok]
    exact ⟨rfl, rfl⟩

theorem adamStepGroups_nil (ps : List AParam) (st : AdamStore) :
    adamStepGroups ps st [] = (ps, st, true) := rfl

theorem adamStepGroups_cons (ps : List AParam) (st : AdamStore) (g : AdamGroup)
    (gs : List AdamGroup) :
    adamStepGroups ps st (g :: gs) =
      (if (adamStepGroup ps st g).2.2 = true then
        adamStepGroups (adamStepGroup ps st g).1 (adamStepGroup ps st g).2.1 gs
      else adamStepGroup ps st g) := rfl

theorem adamStepGroups_skip (i : ℕ) (gs : List AdamGroup) :
    ∀ (ps : List AParam) (st : AdamStore),
      ((ps.getD i default).grad = none ∨ (ps.getD i default).requires_grad = false) →
      (adamStepGroups ps st gs).1.getD i default = ps.getD i default ∧
      (adamStepGroups ps st gs).2.1.getD i none = st.getD i none := by
  induction gs with
  | nil => intro ps st _; exact ⟨rfl, rfl⟩
  | cons g gs' ih =>
    intro ps st hi
    rw [adamStepGroups_cons]
    obtain ⟨h1, h2⟩ := adamStepGroup_skip ps st g i hi
    by_cases hok : (adamStepGroup ps st g).2.2 = true
    · rw [if_pos hok]
      have hi' : ((adamStepGroup ps st g).1.getD i default).grad = none ∨
          ((adamStepGroup ps st g).1.getD i default).requires_grad = false := by
        rw [h1]; exact hi
      obtain ⟨h3, h4⟩ := ih _ _ hi'
      exact ⟨h3.trans h1, h4.trans h2⟩
    · rw [if_neg hok]
      exact ⟨h1, h2⟩

theorem adamStepGroups_ok (gs : List AdamGroup) :
    ∀ (ps : List AParam) (st : AdamStore),
      (∀ g ∈ gs, ∀ p ∈ g.params, (ps.getD p default).grad = none ∨
        (ps.getD p default).requires_grad = false ∨
        ((ps.getD p default).grad.getD ⟨[], false⟩).isSparse = false) →
      (adamStepGroups ps st gs).2.2 = true := by
  induction gs with
  | nil => intro ps st _; rfl
  | cons g gs' ih =>
    intro ps st h
    have hc := collectGroup_ok g.amsgrad ps g.params st (h g (List.mem_cons_self _ _))
    have hok : (adamStepGroup ps st g).2.2 = true := by
      simp only [adamStepGroup]
      rw [if_pos hc]
    rw [adamStepGroups_cons, if_pos hok]
    refine ih _ _ ?_
    intro g' hg' p hp
    have hinv := adamStepGroup_grad_inv ps st g p
    rcases h g' (List.mem_cons_of_mem _ hg') p hp with h1 | h1 | h1
    · left; rw [hinv.1]; exact h1
    · right; left; rw [hinv.2]; exact h1
    · right; right; rw [hinv.1]; exact h1

/-! ## Claim C8: silent skip of parameters without gradients -/

/-- Claim C8. A parameter with no gradient (SGD variant), and a parameter with
no gradient or not marked as requiring gradients (Adam variant), is left
completely unchanged by a step call — value and optimizer state — and the
skip is silent: the SGD step cannot raise at all (its model returns no error
flag), and an Adam step raises only on account of a NON-skipped parameter
with a sparse gradient (skipped parameters are excluded before the sparse
check, so a call whose non-skipped parameters all have dense gradients
succeeds). -/
theorem skipped_params_untouched (wS : SGDWorld) (wA : AdamWorld) (i j : ℕ)
    (hS : (wS.params.getD i default).grad = none)
    (hA : (wA.params.getD j default).grad = none ∨
      (wA.params.getD j default).requires_grad = false) :
    ((sgdStep wS).params.getD i default = wS.params.getD i default ∧
      (sgdStep wS).state.getD i none = wS.state.getD i none) ∧
    ((adamStep wA).1.params.getD j default = wA.params.getD j default ∧
      (adamStep wA).1.state.getD j none = wA.state.getD j none) ∧
    ((∀ g ∈ wA.groups, ∀ p ∈ g.params,
        (wA.params.getD p default).grad = none ∨
        (wA.params.getD p default).requires_grad = false ∨
        ((wA.params.getD p default).grad.getD ⟨[], false⟩).isSparse = false) →
      (adamStep wA).2 = true) := by
  refine ⟨?_, ?_, ?_⟩
  · exact sgdFold_skip i wS.groups wS.params wS.state hS
  · exact adamStepGroups_skip j wA.groups wA.params wA.state hA
  · intro h
    exact adamStepGroups_ok wA.groups wA.params wA.state h

/-- Witness for C8: a gradient-less SGD parameter and a non-trainable Adam
parameter, both untouched through a step, with the Adam call succeeding. -/
theorem skipped_params_untouched_witness :
    ((sgdStep ⟨[⟨[5], none⟩], [none], [⟨[0], 0, 0, 1, 1, 0, false⟩]⟩).params.getD 0 default =
        ⟨[5], none⟩ ∧
      (sgdStep ⟨[⟨[5], none⟩], [none],
        [⟨[0], 0, 0, 1, 1, 0, false⟩]⟩).state.getD 0 none = none) ∧
    ((adamStep ⟨[⟨[7], some ⟨[1], false⟩, false⟩], [none],
        [⟨[0], 1, 0, 0, 1, 0, 1, false⟩]⟩).1.params.getD 0 default =
        ⟨[7], some ⟨[1], false⟩, false⟩ ∧
      (adamStep ⟨[⟨[7], some ⟨[1], false⟩, false⟩], [none],
        [⟨[0], 1, 0, 0, 1, 0, 1, false⟩]⟩).1.state.getD 0 none = none) ∧
    (adamStep ⟨[⟨[7], some ⟨[1], false⟩, false⟩], [none],
      [⟨[0], 1, 0, 0, 1, 0, 1, false⟩]⟩).2 = true := by
  have h := skipped_params_untouched
    ⟨[⟨[5], none⟩], [none], [⟨[0], 0, 0, 1, 1, 0, false⟩]⟩
    ⟨[⟨[7], some ⟨[1], false⟩, false⟩], [none], [⟨[0], 1, 0, 0, 1, 0, 1, false⟩]⟩ 0 0
    rfl (Or.inr rfl)
  refine ⟨h.1, h.2.1, h.2.2 ?_⟩
  intro g hg p hp
  rcases List.mem_cons.mp hg with rfl | hg2
  · rcases List.mem_cons.mp hp with rfl | hp2
    · exact Or.inr (Or.inl rfl)
    · exact absurd hp2 (List.not_mem_nil _)
  · exact absurd hg2 (List.not_mem_nil _)

/-! ## Claim C3: the sparse-gradient abort -/

/-- Claim C3 (amended). When the parameters of some group split as
`q1 ++ i :: q2` with the parameter at index `i` carrying a sparse gradient
(and trainable), all earlier groups having succeeded and every parameter
before `i` in its group being either skipped or dense, the step call fails
with the unsupported-input error, and at the point of the raise: no parameter
VALUE anywhere has been mutated beyond the (fully applied) earlier groups,
the erroring group's state mutations are exactly the lazy initializations and
step-counter increments of the parameters collected before `i`, and the
sparse parameter's own state is untouched. (The claim's stronger reading —
that NO state of any parameter has been mutated — is refuted by the
counterexample: step counters of earlier same-group parameters are already
advanced.) -/
theorem sparse_gradient_aborts (ps : List AParam) (st : AdamStore)
    (G1 G2 : List AdamGroup) (g : AdamGroup) (q1 q2 : List ℕ) (i : ℕ) (gr : PGrad)
    (hgp : g.params = q1 ++ i :: q2) (hi1 : i ∉ q1)
    (hok1 : (adamStepGroups ps st G1).2.2 = true)
    (hgrad : ((adamStepGroups ps st G1).1.getD i default).grad = some gr)
    (hsp : gr.isSparse = true)
    (hrg : ((adamStepGroups ps st G1).1.getD i default).requires_grad = true)
    (hq1 : ∀ j ∈ q1, ((adamStepGroups ps st G1).1.getD j default).grad = none ∨
      ((adamStepGroups ps st G1).1.getD j default).requires_grad = false ∨
      (((adamStepGroups ps st G1).1.getD j default).grad.getD ⟨[], false⟩).isSparse = false) :
    (adamStepGroups ps st (G1 ++ g :: G2)).2.2 = false ∧
    (adamStepGroups ps st (G1 ++ g :: G2)).1 = (adamStepGroups ps st G1).1 ∧
    (adamStepGroups ps st (G1 ++ g :: G2)).2.1 =
      (collectGroup g.amsgrad (adamStepGroups ps st G1).1
        (adamStepGroups ps st G1).2.1 q1).1 ∧
    (adamStepGroups ps st (G1 ++ g :: G2)).2.1.getD i none =
      (adamStepGroups ps st G1).2.1.getD i none := by
  have happ : ∀ (H1 : List AdamGroup) (H2 : List AdamGroup) (ps' : List AParam)
      (st' : AdamStore), (adamStepGroups ps' st' H1).2.2 = true →
      adamStepGroups ps' st' (H1 ++ H2) =
        adamStepGroups (adamStepGroups ps' st' H1).1 (adamStepGroups ps' st' H1).2.1 H2 := by
    intro H1
    induction H1 with
    | nil => intro H2 ps' st' _; rfl
    | cons g' H1' ih =>
      intro H2 ps' st' hok
      rw [adamStepGroups_cons] at hok
      rw [List.cons_append, adamStepGroups_cons,
        adamStepGroups_cons ps' st' g' H1']
      by_cases hg' : (adamStepGroup ps' st' g').2.2 = true
      · simp only [if_pos hg'] at hok ⊢
        rw [ih H2 _ _ hok]
      · simp only [if_neg hg'] at hok ⊢
        exact absurd hok hg'
  rw [happ G1 (g :: G2) ps st hok1]
  have habort := collectGroup_sparse_abort g.amsgrad (adamStepGroups ps st G1).1 i gr hgrad
    hsp hrg q1 (adamStepGroups ps st G1).2.1 q2 hq1
  have hgroup : adamStepGroup (adamStepGroups ps st G1).1 (adamStepGroups ps st G1).2.1 g =
      ((adamStepGroups ps st G1).1,
        (collectGroup g.amsgrad (adamStepGroups ps st G1).1
          (adamStepGroups ps st G1).2.1 q1).1, false) := by
    simp only [adamStepGroup, hgp, habort]
    rw [if_neg Bool.false_ne_true]
  rw [adamStepGroups_cons, hgroup]
  refine ⟨rfl, rfl, rfl, ?_⟩
  exact collectGroup_not_mem g.amsgrad _ i q1 _ hi1

/-- Witness for C3 (amended): a single group `[0, 1]` where parameter `0` is
dense and parameter `1` carries a sparse gradient; the call fails, parameter
values are untouched, and the sparse parameter's state is untouched. -/
theorem sparse_gradient_aborts_witness :
    (adamStepGroups
        [⟨[1], some ⟨[1], false⟩, true⟩, ⟨[1], some ⟨[1], true⟩, true⟩] [none, none]
        ([] ++ (⟨[0, 1], 1, 0, 0, 1, 0, 1, false⟩ : AdamGroup) :: [])).2.2 = false ∧
    (adamStepGroups
        [⟨[1], some ⟨[1], false⟩, true⟩, ⟨[1], some ⟨[1], true⟩, true⟩] [none, none]
        ([] ++ (⟨[0, 1], 1, 0, 0, 1, 0, 1, false⟩ : AdamGroup) :: [])).1 =
      [⟨[1], some ⟨[1], false⟩, true⟩, ⟨[1], some ⟨[1], true⟩, true⟩] ∧
    (adamStepGroups
        [⟨[1], some ⟨[1], false⟩, true⟩, ⟨[1], some ⟨[1], true⟩, true⟩] [none, none]
        ([] ++ (⟨[0, 1], 1, 0, 0, 1, 0, 1, false⟩ : AdamGroup) :: [])).2.1.getD 1 none =
      none := by
  have h := sparse_gradient_aborts
    [⟨[1], some ⟨[1], false⟩, true⟩, ⟨[1], some ⟨[1], true⟩, true⟩] [none, none]
    [] [] ⟨[0, 1], 1, 0, 0, 1, 0, 1, false⟩ [0] [] 1 ⟨[1], true⟩
    rfl (by decide) rfl rfl rfl rfl ?_
  · exact ⟨h.1, h.2.1, h.2.2.2.trans rfl⟩
  · intro j hj
    rcases List.mem_cons.mp hj with rfl | hj2
    · exact Or.inr (Or.inr rfl)
    · exact absurd hj2 (List.not_mem_nil _)

/-- Counterexample to C3 as stated: two parameters in one group, the first
dense and the second sparse. The call fails, but the optimizer state is NOT
left unmutated: the first parameter's state has already been initialized and
its step counter advanced when the error is raised. -/
theorem sparse_gradient_counterexample :
    (adamStep ⟨[⟨[1], some ⟨[1], false⟩, true⟩, ⟨[1], some ⟨[1], true⟩, true⟩],
        [none, none], [⟨[0, 1], 1, 0, 0, 1, 0, 1, false⟩]⟩).2 = false ∧
    (adamStep ⟨[⟨[1], some ⟨[1], false⟩, true⟩, ⟨[1], some ⟨[1], true⟩, true⟩],
        [none, none], [⟨[0, 1], 1, 0, 0, 1, 0, 1, false⟩]⟩).1.state ≠ [none, none] := by
  refine ⟨rfl, ?_⟩
  intro h
  have hv := congrArg (fun l => l.getD 0 none) h
  simp only at hv
  rw [show (adamStep ⟨[⟨[1], some ⟨[1], false⟩, true⟩, ⟨[1], some ⟨[1], true⟩, true⟩],
      [none, none], [⟨[0, 1], 1, 0, 0, 1, 0, 1, false⟩]⟩).1.state.getD 0 none =
    some (⟨1, [0], [0], none⟩ : AdamState) from rfl] at hv
  exact Option.noConfusion hv

end Composer
